import Mathlib

/-!
Verification of `tools/isolate/trace_inputs.py`.

The Python sources are shallowly embedded: Python byte strings (`str` under
Python 2) become `PyStr := List Char`, the regular expressions of the two
text-log parsers are compiled by hand into deterministic matching functions
that mirror the leftmost/greedy/lazy semantics of the `re` module on the
concrete patterns used, exceptions (failed `assert`, `KeyError`,
`AttributeError` from a failed `.match(...)` or an unknown handler name)
become `none : Option _`, and the filesystem accesses (`os.path.isfile`,
`os.path.isdir`, `os.path.realpath`, `os.listdir`) are parameters of the
embedded functions.  The POSIX flavor of `os.path` is modeled (the separator
is `/`), matching the Linux/strace and Mac/DTrace code paths.

Log records are fed to the parsers as the content of one line without its
trailing newline; the `$` anchor of the `re` module, which matches just
before a trailing newline, is therefore modeled as end-of-string, and the
`.` class (which does not match a newline) is modeled by explicit
newline-freeness checks on the lazily matched groups.
-/

/-- Python byte strings are modeled as lists of characters. -/
abbrev PyStr := List Char

/-- Characters stripped by Python's `str.strip()`: the six ASCII whitespace
characters, which also form the `\s` class of the `re` module. -/
def isSpaceC (c : Char) : Bool :=
  c = ' ' || c = '\t' || c = '\n' || c = '\r' || c = Char.ofNat 11 || c = Char.ofNat 12

/-- The `\d` class of the `re` module on byte strings. -/
def isDigitC (c : Char) : Bool := '0' ≤ c && c ≤ '9'

/-- The `[A-Z]` class. -/
def isUpperC (c : Char) : Bool := 'A' ≤ c && c ≤ 'Z'

/-- Python `s.startswith(pre)`. -/
def pyStarts (s : PyStr) (pre : String) : Bool := pre.data.isPrefixOf s

/-- Python `s.endswith(suf)`. -/
def strEnds (s : PyStr) (suf : String) : Bool := suf.data.isSuffixOf s

/-- Whether a path ends with the POSIX separator. -/
def endsSlash (s : PyStr) : Bool := s.getLast? = some '/'

/-- Python `str.strip()` with no argument. -/
def pyStrip (s : PyStr) : PyStr :=
  ((s.dropWhile isSpaceC).reverse.dropWhile isSpaceC).reverse

/-- Python substring containment `pat in s`. -/
def hasSub (pat : PyStr) : PyStr → Bool
  | [] => pat.isEmpty
  | c :: rest => pat.isPrefixOf (c :: rest) || hasSub pat rest

/-- Value of a string of decimal digits. -/
def digitsToNat (l : PyStr) : Nat :=
  l.foldl (fun a c => a * 10 + (c.toNat - 48)) 0

/-- Python `int(s)` on a string: optional surrounding whitespace, optional
sign, then at least one digit; anything else raises `ValueError` (`none`). -/
def pyIntOf (s : PyStr) : Option Int :=
  match pyStrip s with
  | '-' :: ds => if ds ≠ [] ∧ ds.all isDigitC then some (-(digitsToNat ds : Int)) else none
  | '+' :: ds => if ds ≠ [] ∧ ds.all isDigitC then some (digitsToNat ds) else none
  | ds => if ds ≠ [] ∧ ds.all isDigitC then some (digitsToNat ds) else none

/-- Backtracking search used to compile the lazy groups `(.*?)` of the log
grammars: finds the leftmost split `l = g ++ pat ++ rest` such that `check
rest` succeeds, returning the group `g` (possibly empty) and the value
produced from the tail. -/
def findCut (pat : PyStr) (check : PyStr → Option α) : PyStr → Option (PyStr × α)
  | [] =>
    if pat.isPrefixOf ([] : PyStr) then (check []).map (fun a => (([] : PyStr), a)) else none
  | c :: rest =>
    match (if pat.isPrefixOf (c :: rest) then check ((c :: rest).drop pat.length) else none) with
    | some a => some ([], a)
    | none =>
      match findCut pat check rest with
      | some (g, a) => some (c :: g, a)
      | none => none

/-- As `findCut`, but for the lazy groups `(.+?)` whose match is nonempty. -/
def findCut1 (pat : PyStr) (check : PyStr → Option α) : PyStr → Option (PyStr × α)
  | [] => none
  | c :: rest => (findCut pat check rest).map (fun p => (c :: p.1, p.2))

namespace Posixpath

/-- `posixpath.join(a, b)` (one step of Python's variadic `join`). -/
def join (a b : PyStr) : PyStr :=
  if pyStarts b "/" then b
  else if a = [] ∨ endsSlash a then a ++ b
  else a ++ '/' :: b

/-- Python `s.split('/')`. -/
def splitSlash : PyStr → List PyStr
  | [] => [[]]
  | c :: rest =>
    if c = '/' then [] :: splitSlash rest
    else
      match splitSlash rest with
      | [] => [[c]]
      | g :: gs => (c :: g) :: gs

/-- `posixpath.dirname(p)`: everything up to and including the last slash,
with trailing slashes stripped unless the head is empty or all slashes. -/
def dirname (p : PyStr) : PyStr :=
  let head := (p.reverse.dropWhile (fun c => decide (c ≠ '/'))).reverse
  if head = [] then head
  else if head.all (fun c => decide (c = '/')) then head
  else (head.reverse.dropWhile (fun c => decide (c = '/'))).reverse

/-- `posixpath.normpath(p)`: lexical collapse of `.`, `..` and duplicate
separators, preserving up to two initial slashes. -/
def normpath (p : PyStr) : PyStr :=
  if p = [] then ['.']
  else
    let islashes : Nat :=
      if pyStarts p "/" then (if pyStarts p "//" ∧ ¬ pyStarts p "///" then 2 else 1) else 0
    let comps := splitSlash p
    let newComps := comps.foldl (fun acc comp =>
      if comp = [] ∨ comp = ['.'] then acc
      else if comp ≠ ['.', '.'] ∨ (islashes = 0 ∧ acc = []) ∨ acc.getLast? = some ['.', '.'] then
        acc ++ [comp]
      else acc.dropLast) []
    let out := List.replicate islashes '/' ++ List.intercalate ['/'] newComps
    if out = [] then ['.'] else out

/-- `posixpath.abspath(p)` relative to the process working directory `cwdir`. -/
def abspath (cwdir p : PyStr) : PyStr :=
  if pyStarts p "/" then normpath p else normpath (join cwdir p)

/-- Length of the common prefix of two component lists
(`len(posixpath.commonprefix([a, b]))`). -/
def cpfxLen : List PyStr → List PyStr → Nat
  | a :: as_, b :: bs => if a = b then cpfxLen as_ bs + 1 else 0
  | _, _ => 0

/-- Python's variadic `posixpath.join(x, *rest)`. -/
def joinList : List PyStr → PyStr
  | [] => []
  | a :: rest => rest.foldl join a

/-- `posixpath.relpath(p, start)` under working directory `cwdir`; `none`
models the `ValueError` raised on an empty path. -/
def relpath (cwdir p start : PyStr) : Option PyStr :=
  if p = [] then none
  else
    let startList := (splitSlash (abspath cwdir start)).filter (fun x => decide (x ≠ []))
    let pathList := (splitSlash (abspath cwdir p)).filter (fun x => decide (x ≠ []))
    let i := cpfxLen startList pathList
    let relList := List.replicate (startList.length - i) ['.', '.'] ++ pathList.drop i
    if relList = [] then some ['.'] else some (joinList relList)

end Posixpath

/-- `posix_relpath(path, root)` from `trace_inputs.py`: `posixpath.relpath`
that keeps a trailing slash of `path`. -/
def posix_relpath (cwdir path root : PyStr) : Option PyStr :=
  (Posixpath.relpath cwdir path root).map (fun out => if endsSlash path then out ++ ['/'] else out)

example : Posixpath.normpath "/a//b/./c/../d".data = "/a/b/d".data := by decide
example : Posixpath.dirname "a/f".data = "a".data := by decide
example : Posixpath.dirname "f".data = ([] : PyStr) := by decide
example : Posixpath.dirname "/f".data = "/".data := by decide
example : Posixpath.dirname "b/".data = "b".data := by decide
example : Posixpath.join "a".data "f".data = "a/f".data := by decide
example : posix_relpath "/c".data "/a/b/".data "/a".data = some "b/".data := by decide
example : pyIntOf " 42 ".data = some 42 := by decide
example : pyIntOf "? ERESTART".data = none := by decide

/-- Abbreviation for "is not a newline", the restriction the `.` class of the
`re` module puts on lazily matched groups. -/
def nonNl (c : Char) : Bool := decide (c ≠ '\n')

/-- Abstract filesystem supplying `os.path.isfile`, `os.path.isdir` and
`os.path.realpath`. -/
structure FSys where
  isfile : PyStr → Bool
  isdir : PyStr → Bool
  realpath : PyStr → PyStr

/-- Lookup in a Python `dict` modeled as an association list. -/
def alookup [DecidableEq α] (k : α) : List (α × β) → Option β
  | [] => none
  | p :: rest => if p.1 = k then some p.2 else alookup k rest

/-- Insertion/overwrite in a Python `dict` modeled as an association list. -/
def aset [DecidableEq α] (k : α) (v : β) : List (α × β) → List (α × β)
  | [] => [(k, v)]
  | p :: rest => if p.1 = k then (k, v) :: rest else p :: aset k v rest

/-- Deletion from a Python `dict` modeled as an association list. -/
def aerase [DecidableEq α] (k : α) (l : List (α × β)) : List (α × β) :=
  l.filter (fun p => decide (p.1 ≠ k))

/-- State of `Strace._Context`: per-pid working directories, the two path
sets, and the unfinished-call stash keyed by `(pid string, function name)`. -/
structure SState where
  cwd : List (Int × PyStr)
  files : List PyStr
  nonExistent : List PyStr
  pending : List ((PyStr × PyStr) × PyStr)
  deriving DecidableEq

namespace Strace

/-- Compiled `\s+([^\(]+)` applied to the segment of the line that precedes
the first parenthesis (after the pid digits): greedy `\s+` takes the maximal
whitespace run, backing off one character when the whole segment is
whitespace so that `[^\(]+` is nonempty. -/
def fnOfSeg (seg : PyStr) : Option PyStr :=
  let ws := seg.takeWhile isSpaceC
  if ws = [] then none
  else if ws.length = seg.length then
    if 2 ≤ seg.length then some (seg.drop (seg.length - 1)) else none
  else some (seg.drop ws.length)

/-- Tail `\)\s+= (.+)$` of `RE_HEADER`, checked after a candidate `)`. -/
def headTail (r : PyStr) : Option PyStr :=
  let ws := r.takeWhile isSpaceC
  if ws = [] then none
  else
    match r.drop ws.length with
    | '=' :: ' ' :: rest => if rest ≠ [] ∧ rest.all nonNl then some rest else none
    | _ => none

/-- Compiled `RE_HEADER = ^(\d+)\s+([^\(]+)\((.+?)\)\s+= (.+)$`, returning
`(pid, function, args, result)`. -/
def matchHeaderLine (s : PyStr) : Option (Nat × PyStr × PyStr × PyStr) :=
  let d := s.takeWhile isDigitC
  if d = [] then none
  else
    let r1 := s.drop d.length
    let seg := r1.takeWhile (fun c => decide (c ≠ '('))
    match r1.drop seg.length with
    | '(' :: r3 =>
      match fnOfSeg seg with
      | none => none
      | some fn =>
        match findCut1 [')'] headTail r3 with
        | none => none
        | some (args, res) =>
          if args.all nonNl then some (digitsToNat d, fn, args, res) else none
    | _ => none

/-- Compiled `RE_UNFINISHED = ^(\d+)\s+([^\(]+).*$`, returning the
`(pid string, function)` stash key. -/
def matchUnfin (s : PyStr) : Option (PyStr × PyStr) :=
  let d := s.takeWhile isDigitC
  if d = [] then none
  else
    let r1 := s.drop d.length
    let seg := r1.takeWhile (fun c => decide (c ≠ '('))
    if (r1.drop seg.length).all nonNl then (fnOfSeg seg).map (fun fn => (d, fn)) else none

/-- Compiled `RE_RESUMED = ^(\d+)\s+<\.\.\. ([^ ]+) resumed> (.+)$`,
returning `(pid string, function, tail)`. -/
def matchResumedLine (s : PyStr) : Option (PyStr × PyStr × PyStr) :=
  let d := s.takeWhile isDigitC
  if d = [] then none
  else
    let r1 := s.drop d.length
    let ws := r1.takeWhile isSpaceC
    if ws = [] then none
    else
      match r1.drop ws.length with
      | '<' :: '.' :: '.' :: '.' :: ' ' :: r2 =>
        let fn := r2.takeWhile (fun c => decide (c ≠ ' '))
        if fn = [] then none
        else
          let r3 := r2.drop fn.length
          if (" resumed> ".data).isPrefixOf r3 then
            let tl := r3.drop 10
            if tl ≠ [] ∧ tl.all nonNl then some (d, fn, tl) else none
          else none
      | _ => none

/-- Search for `.+ ---` inside the remainder of a signal line: an occurrence
of the literal `" ---"` reached without crossing a newline. -/
def sigSearch : PyStr → Bool
  | [] => false
  | c :: rest => (" ---".data.isPrefixOf (c :: rest)) || (nonNl c && sigSearch rest)

/-- Compiled `RE_SIGNAL = ^\d+\s+--- SIG[A-Z]+ .+ ---` (no end anchor). -/
def matchSignal (s : PyStr) : Bool :=
  let d := s.takeWhile isDigitC
  if d = [] then false
  else
    let r1 := s.drop d.length
    let ws := r1.takeWhile isSpaceC
    if ws = [] then false
    else
      let r2 := r1.drop ws.length
      if ("--- SIG".data).isPrefixOf r2 then
        let r3 := r2.drop 7
        let caps := r3.takeWhile isUpperC
        if caps = [] then false
        else
          match r3.drop caps.length with
          | ' ' :: c :: r5 => nonNl c && sigSearch r5
          | _ => false
      else false

/-- Compiled `RE_KILLED = ^(\d+)\s+\+\+\+ killed by ([A-Z]+) \+\+\+$`. -/
def matchKilled (s : PyStr) : Option Nat :=
  let d := s.takeWhile isDigitC
  if d = [] then none
  else
    let r1 := s.drop d.length
    let ws := r1.takeWhile isSpaceC
    if ws = [] then none
    else
      let r2 := r1.drop ws.length
      if ("+++ killed by ".data).isPrefixOf r2 then
        let r3 := r2.drop 14
        let caps := r3.takeWhile isUpperC
        if caps ≠ [] ∧ r3.drop caps.length = " +++".data then some (digitsToNat d) else none
      else none

/-- Compiled `RE_UNAVAILABLE = \)\s+= \? <unavailable>$` used with
`re.match`, hence anchored at the start of the line: the line itself must
begin with `)`. -/
def matchUnavail (s : PyStr) : Bool :=
  match s with
  | ')' :: r =>
    let ws := r.takeWhile isSpaceC
    ws ≠ [] && r.drop ws.length = "= ? <unavailable>".data
  | _ => false

/-- Compiled `RE_CHDIR = ^\"(.+?)\"$` (also `Dtrace._Context.RE_CHDIR`):
the group spans from after the opening quote to before the closing final
quote. -/
def matchQuoted (s : PyStr) : Option PyStr :=
  match s with
  | '"' :: rest =>
    if 2 ≤ rest.length ∧ rest.getLast? = some '"' then
      let m := rest.dropLast
      if m.all nonNl then some m else none
    else none
  | _ => none

/-- Tail check of `RE_RENAME`: the remainder must be `(.+?)\"$`. -/
def renTail (r : PyStr) : Option PyStr :=
  if 2 ≤ r.length ∧ r.getLast? = some '"' ∧ r.dropLast.all nonNl then some r.dropLast else none

/-- Compiled `RE_RENAME = ^\"(.+?)\", \"(.+?)\"$` (same pattern in the
strace and dtrace contexts). -/
def matchRenameArgs (s : PyStr) : Option (PyStr × PyStr) :=
  match s with
  | '"' :: rest =>
    match findCut1 ("\", \"".data) renTail rest with
    | some (g1, g2) => if g1.all nonNl then some (g1, g2) else none
    | none => none
  | _ => none

/-- Innermost tail `(.+?)\]$` of `RE_EXECVE`. -/
def exeTail2 (r : PyStr) : Option Unit :=
  if 2 ≤ r.length ∧ r.getLast? = some ']' ∧ r.dropLast.all nonNl then some () else none

/-- Middle tail `.+?\], \[.+?\]$` of `RE_EXECVE`. -/
def exeTail (r : PyStr) : Option Unit :=
  match findCut1 ("], [".data) exeTail2 r with
  | some (a, _) => if a.all nonNl then some () else none
  | none => none

/-- Compiled `RE_EXECVE = ^\"(.+?)\", \[.+?\], \[.+?\]$`, returning the
executable path. -/
def matchExecveArgs (s : PyStr) : Option PyStr :=
  match s with
  | '"' :: rest =>
    match findCut1 ("\", [".data) exeTail rest with
    | some (g1, _) => if g1.all nonNl then some g1 else none
    | none => none
  | _ => none

/-- The `[A-Z\_\|]+` flag class of `RE_OPEN2`/`RE_OPEN3`. -/
def isFlagC (c : Char) : Bool := isUpperC c || c = '_' || c = '|'

/-- Tail `([A-Z\_\|]+)$` of `RE_OPEN2`. -/
def o2Tail (r : PyStr) : Option PyStr :=
  if r ≠ [] ∧ r.all isFlagC then some r else none

/-- Tail `([A-Z\_\|]+), (\d+)$` of `RE_OPEN3`. -/
def o3Tail (r : PyStr) : Option PyStr :=
  let fl := r.takeWhile isFlagC
  if fl = [] then none
  else
    match r.drop fl.length with
    | ',' :: ' ' :: ds => if ds ≠ [] ∧ ds.all isDigitC then some fl else none
    | _ => none

/-- Compiled `RE_OPEN2 = ^\"(.*?)\", ([A-Z\_\|]+)$` returning
`(path, flags)`; the path group may be empty. -/
def matchOpen2 (s : PyStr) : Option (PyStr × PyStr) :=
  match s with
  | '"' :: rest =>
    match findCut ("\", ".data) o2Tail rest with
    | some (g, fl) => if g.all nonNl then some (g, fl) else none
    | none => none
  | _ => none

/-- Compiled `RE_OPEN3 = ^\"(.*?)\", ([A-Z\_\|]+), (\d+)$` returning
`(path, flags)`. -/
def matchOpen3 (s : PyStr) : Option (PyStr × PyStr) :=
  match s with
  | '"' :: rest =>
    match findCut ("\", ".data) o3Tail rest with
    | some (g, fl) => if g.all nonNl then some (g, fl) else none
    | none => none
  | _ => none

/-- Resolution of a possibly relative path against the per-pid cwd map
(the shared shape `if not filepath.startswith('/'): filepath =
os.path.join(self._cwd[pid], filepath)`); `none` is the `KeyError` on an
unknown pid. -/
def resolveRel (cwd : List (Int × PyStr)) (pid : Int) (fp : PyStr) : Option PyStr :=
  if pyStarts fp "/" then some fp
  else (alookup pid cwd).map (fun c => Posixpath.join c fp)

/-- `Strace._Context._handle_file`. -/
def handle_file (bl : PyStr → Bool) (fs : FSys) (s : SState) (pid : Int) (fp res : PyStr) :
    Option SState :=
  if pyStarts res "-1" then some s
  else
    match resolveRel s.cwd pid fp with
    | none => none
    | some fp2 =>
      if bl fp2 then some s
      else if fp2 ∈ s.files ∨ fp2 ∈ s.nonExistent then some s
      else if fs.isfile fp2 then some ⟨s.cwd, fp2 :: s.files, s.nonExistent, s.pending⟩
      else some ⟨s.cwd, s.files, fp2 :: s.nonExistent, s.pending⟩

/-- `Strace._Context.handle_chdir`: on success replace (absolute) or join
(relative) the per-pid cwd; any other result is `assert False`. -/
def handle_chdir (s : SState) (pid : Int) (args res : PyStr) : Option SState :=
  if pyStarts res "0" then
    match matchQuoted args with
    | none => none
    | some cw =>
      if pyStarts cw "/" = false then
        match alookup pid s.cwd with
        | none => none
        | some c =>
          some ⟨aset pid (Posixpath.join c cw) s.cwd, s.files, s.nonExistent, s.pending⟩
      else some ⟨aset pid cw s.cwd, s.files, s.nonExistent, s.pending⟩
  else none

/-- `Strace._Context.handle_clone`: transfers the parent's cwd to the child
pid returned in `result`. -/
def handle_clone (s : SState) (pid : Int) (res : PyStr) : Option SState :=
  if res = "? ERESTARTNOINTR (To be restarted)".data then some s
  else
    match pyIntOf res with
    | none => none
    | some child =>
      match alookup pid s.cwd with
      | none => none
      | some c => some ⟨aset child c s.cwd, s.files, s.nonExistent, s.pending⟩

/-- `Strace._Context.handle_execve`. -/
def handle_execve (bl : PyStr → Bool) (fs : FSys) (s : SState) (pid : Int) (args res : PyStr) :
    Option SState :=
  match matchExecveArgs args with
  | none => none
  | some fp => handle_file bl fs s pid fp res

/-- `Strace._Context.handle_exit_group`: removes the pid's cwd. -/
def handle_exit_group (s : SState) (pid : Int) : Option SState :=
  match alookup pid s.cwd with
  | none => none
  | some _ => some ⟨aerase pid s.cwd, s.files, s.nonExistent, s.pending⟩

/-- `Strace._Context.handle_open`: tries `RE_OPEN3` then `RE_OPEN2`, drops
directory opens (`O_DIRECTORY` substring in the flags). -/
def handle_open (bl : PyStr → Bool) (fs : FSys) (s : SState) (pid : Int) (args res : PyStr) :
    Option SState :=
  match (matchOpen3 args).or (matchOpen2 args) with
  | none => none
  | some (fp, fl) =>
    if hasSub ("O_DIRECTORY".data) fl then some s else handle_file bl fs s pid fp res

/-- `Strace._Context.handle_rename`: records both the source and the
destination path. -/
def handle_rename (bl : PyStr → Bool) (fs : FSys) (s : SState) (pid : Int) (args res : PyStr) :
    Option SState :=
  match matchRenameArgs args with
  | none => none
  | some (a, b) =>
    match handle_file bl fs s pid a res with
    | none => none
    | some s1 => handle_file bl fs s1 pid b res

/-- The `getattr(self, 'handle_%s' % function)` dispatch applied to a line
that matched `RE_HEADER`; `handle_fork`, `handle_stat64` and `handle_vfork`
are `assert False` in the source, and an unregistered name raises
`AttributeError` — both are `none`. -/
def dispatch (bl : PyStr → Bool) (fs : FSys) (s : SState) (line : PyStr) : Option SState :=
  match matchHeaderLine line with
  | none => none
  | some (pid, fn, args, res) =>
    if fn = "chdir".data then handle_chdir s (Int.ofNat pid) args res
    else if fn = "clone".data then handle_clone s (Int.ofNat pid) res
    else if fn = "execve".data then handle_execve bl fs s (Int.ofNat pid) args res
    else if fn = "exit_group".data then handle_exit_group s (Int.ofNat pid)
    else if fn = "fork".data then none
    else if fn = "open".data then handle_open bl fs s (Int.ofNat pid) args res
    else if fn = "rename".data then handle_rename bl fs s (Int.ofNat pid) args res
    else if fn = "stat64".data then none
    else if fn = "vfork".data then none
    else none

/-- `Strace._Context.on_line`: strip, ignore signals, treat kills as
`exit_group`, stash unfinished calls, drop unavailable calls, stitch resumed
calls with their stashed prefix, then dispatch on the header. -/
def on_line (bl : PyStr → Bool) (fs : FSys) (s : SState) (raw : PyStr) : Option SState :=
  let line := pyStrip raw
  if matchSignal line then some s
  else
    match matchKilled line with
    | some pid => handle_exit_group s (Int.ofNat pid)
    | none =>
      if strEnds line " <unfinished ...>" then
        let line2 := line.take (line.length - 17)
        match matchUnfin line2 with
        | none => none
        | some key => some ⟨s.cwd, s.files, s.nonExistent, aset key line2 s.pending⟩
      else if matchUnavail line then some s
      else
        match matchResumedLine line with
        | some (d, fn, tl) =>
          match alookup (d, fn) s.pending with
          | none => none
          | some pend =>
            dispatch bl fs ⟨s.cwd, s.files, s.nonExistent, aerase (d, fn) s.pending⟩ (pend ++ tl)
        | none => dispatch bl fs s line

/-- The fresh `_Context(blacklist)` built by `parse_log`. -/
def init : SState := ⟨[], [], [], []⟩

/-- The `for line in open(filename): context.on_line(line)` loop. -/
def run_lines (bl : PyStr → Bool) (fs : FSys) : SState → List PyStr → Option SState
  | s, [] => some s
  | s, l :: ls =>
    match on_line bl fs s l with
    | none => none
    | some s2 => run_lines bl fs s2 ls

/-- `Strace.parse_log`: run every line through the context, then resolve
each surviving path through `os.path.realpath`. -/
def parse_log (bl : PyStr → Bool) (fs : FSys) (lines : List PyStr) :
    Option (List PyStr × List PyStr) :=
  (run_lines bl fs init lines).map
    (fun s => (s.files.map fs.realpath, s.nonExistent.map fs.realpath))

end Strace

/-- State of `Dtrace._Context`: per-pid working directories and the two
path sets. -/
structure DState where
  cwd : List (Int × PyStr)
  files : List PyStr
  nonExistent : List PyStr
  deriving DecidableEq

namespace Dtrace

/-- The `[a-zA-Z_\-]` function-name class of the dtrace `RE_HEADER`. -/
def isFnC (c : Char) : Bool :=
  ('a' ≤ c && c ≤ 'z') || ('A' ≤ c && c ≤ 'Z') || c = '_' || c = '-'

/-- Tail `(.+)$` of the dtrace header. -/
def dTail (r : PyStr) : Option PyStr :=
  if r ≠ [] ∧ r.all nonNl then some r else none

/-- Compiled `RE_HEADER = ^\d+ (\d+):(\d+) ([a-zA-Z_\-]+)\((.*?)\) = (.+)$`,
returning `(ppid, pid, function, args, result)`; the leading log index is
not captured. -/
def matchHeaderLine (s : PyStr) : Option (Nat × Nat × PyStr × PyStr × PyStr) :=
  let d0 := s.takeWhile isDigitC
  if d0 = [] then none
  else
    match s.drop d0.length with
    | ' ' :: r1 =>
      let p1 := r1.takeWhile isDigitC
      if p1 = [] then none
      else
        match r1.drop p1.length with
        | ':' :: r2 =>
          let p2 := r2.takeWhile isDigitC
          if p2 = [] then none
          else
            match r2.drop p2.length with
            | ' ' :: r3 =>
              let fn := r3.takeWhile isFnC
              if fn = [] then none
              else
                match r3.drop fn.length with
                | '(' :: r4 =>
                  match findCut (") = ".data) dTail r4 with
                  | some (args, res) =>
                    if args.all nonNl then
                      some (digitsToNat p1, digitsToNat p2, fn, args, res)
                    else none
                  | none => none
                | _ => none
            | _ => none
        | _ => none
    | _ => none

/-- Tail `(\d+), (\d+)$` of the dtrace `RE_OPEN`, returning the flag
digits (the mode digits are never used). -/
def dOpenTail (r : PyStr) : Option PyStr :=
  let d1 := r.takeWhile isDigitC
  if d1 = [] then none
  else
    match r.drop d1.length with
    | ',' :: ' ' :: d2 => if d2 ≠ [] ∧ d2.all isDigitC then some d1 else none
    | _ => none

/-- Compiled `RE_OPEN = ^\"(.+?)\", (\d+), (\d+)$`, returning
`(path, flag digits)`. -/
def matchOpenArgs (s : PyStr) : Option (PyStr × PyStr) :=
  match s with
  | '"' :: rest =>
    match findCut1 ("\", ".data) dOpenTail rest with
    | some (g, fl) => if g.all nonNl then some (g, fl) else none
    | none => none
  | _ => none

/-- `Dtrace._Context._handle_file`: results starting with `-1` or `2` are
dropped before any path resolution, then the path is resolved against the
pid's cwd, normalized, and classified unless blacklisted, already seen, or a
directory. -/
def handle_file (bl : PyStr → Bool) (fs : FSys) (s : DState) (pid : Int) (fp res : PyStr) :
    Option DState :=
  if pyStarts res "-1" || pyStarts res "2" then some s
  else
    match (if pyStarts fp "/" then some fp
           else (alookup pid s.cwd).map (fun c => Posixpath.join c fp)) with
    | none => none
    | some fp2 =>
      let fp3 := Posixpath.normpath fp2
      if bl fp3 then some s
      else if fp3 ∈ s.files ∨ fp3 ∈ s.nonExistent ∨ fs.isdir fp3 then some s
      else if fs.isfile fp3 then some ⟨s.cwd, fp3 :: s.files, s.nonExistent⟩
      else some ⟨s.cwd, s.files, fp3 :: s.nonExistent⟩

/-- `Dtrace._Context.handle_dtrace_BEGIN`. -/
def handle_dtrace_BEGIN (s : DState) : Option DState := some s

/-- `Dtrace._Context.handle_proc_start`: asserts the result is `0` and
transfers the parent's cwd to the child. -/
def handle_proc_start (s : DState) (ppid pid : Int) (res : PyStr) : Option DState :=
  if res = "0".data then
    match alookup ppid s.cwd with
    | none => none
    | some c => some ⟨aset pid c s.cwd, s.files, s.nonExistent⟩
  else none

/-- `Dtrace._Context.handle_proc_exit`: removes the pid's cwd. -/
def handle_proc_exit (s : DState) (pid : Int) : Option DState :=
  match alookup pid s.cwd with
  | none => none
  | some _ => some ⟨aerase pid s.cwd, s.files, s.nonExistent⟩

/-- `Dtrace._Context.handle_chdir`: textually the same update as the strace
handler (`RE_CHDIR` is the same pattern in both contexts). -/
def handle_chdir (s : DState) (pid : Int) (args res : PyStr) : Option DState :=
  if pyStarts res "0" then
    match Strace.matchQuoted args with
    | none => none
    | some cw =>
      if pyStarts cw "/" = false then
        match alookup pid s.cwd with
        | none => none
        | some c => some ⟨aset pid (Posixpath.join c cw) s.cwd, s.files, s.nonExistent⟩
      else some ⟨aset pid cw s.cwd, s.files, s.nonExistent⟩
  else none

/-- `Dtrace._Context.O_DIRECTORY = 0x100000`. -/
def O_DIRECTORY : Nat := 1048576

/-- `Dtrace._Context.handle_open`: drops directory opens
(`O_DIRECTORY & flag == O_DIRECTORY`). -/
def handle_open (bl : PyStr → Bool) (fs : FSys) (s : DState) (pid : Int) (args res : PyStr) :
    Option DState :=
  match matchOpenArgs args with
  | none => none
  | some (fp, fl) =>
    if O_DIRECTORY &&& digitsToNat fl = O_DIRECTORY then some s
    else handle_file bl fs s pid fp res

/-- `Dtrace._Context.handle_open_nocancel` forwards to `handle_open`. -/
def handle_open_nocancel (bl : PyStr → Bool) (fs : FSys) (s : DState) (pid : Int)
    (args res : PyStr) : Option DState :=
  handle_open bl fs s pid args res

/-- `Dtrace._Context.handle_rename` (`RE_RENAME` is the same pattern as in
the strace context). -/
def handle_rename (bl : PyStr → Bool) (fs : FSys) (s : DState) (pid : Int) (args res : PyStr) :
    Option DState :=
  match Strace.matchRenameArgs args with
  | none => none
  | some (a, b) =>
    match handle_file bl fs s pid a res with
    | none => none
    | some s1 => handle_file bl fs s1 pid b res

/-- `'-'` to `'_'` rewriting applied to the function name before dispatch. -/
def replaceDash (fn : PyStr) : PyStr := fn.map (fun c => if c = '-' then '_' else c)

/-- `Dtrace._Context.on_line`: header match is asserted, then
`getattr(self, 'handle_%s' % fn.replace('-', '_'), self._handle_ignored)`
dispatches, falling back to `_handle_ignored` (a debug log, state
unchanged) for unknown names. -/
def on_line (bl : PyStr → Bool) (fs : FSys) (s : DState) (line : PyStr) : Option DState :=
  match matchHeaderLine line with
  | none => none
  | some (ppid, pid, fn, args, res) =>
    let f := replaceDash fn
    if f = "dtrace_BEGIN".data then handle_dtrace_BEGIN s
    else if f = "proc_start".data then handle_proc_start s (Int.ofNat ppid) (Int.ofNat pid) res
    else if f = "proc_exit".data then handle_proc_exit s (Int.ofNat pid)
    else if f = "chdir".data then handle_chdir s (Int.ofNat pid) args res
    else if f = "open_nocancel".data then handle_open_nocancel bl fs s (Int.ofNat pid) args res
    else if f = "open".data then handle_open bl fs s (Int.ofNat pid) args res
    else if f = "rename".data then handle_rename bl fs s (Int.ofNat pid) args res
    else some s

/-- The fresh `_Context(blacklist)` built by `parse_log`. -/
def init : DState := ⟨[], [], []⟩

/-- The `for line in open(filename, 'rb'): context.on_line(line)` loop. -/
def run_lines (bl : PyStr → Bool) (fs : FSys) : DState → List PyStr → Option DState
  | s, [] => some s
  | s, l :: ls =>
    match on_line bl fs s l with
    | none => none
    | some s2 => run_lines bl fs s2 ls

/-- `Dtrace.parse_log`: run every line through the context, then resolve
each surviving path through `os.path.realpath`. -/
def parse_log (bl : PyStr → Bool) (fs : FSys) (lines : List PyStr) :
    Option (List PyStr × List PyStr) :=
  (run_lines bl fs init lines).map
    (fun s => (s.files.map fs.realpath, s.nonExistent.map fs.realpath))

end Dtrace

/-- State of `LogmanTrace._Context`: the two path sets. -/
structure LState where
  files : List PyStr
  nonExistent : List PyStr
  deriving DecidableEq

namespace Logman

/-- `LogmanTrace._Context._handle_file`: skip when blacklisted, a
directory, or already classified; otherwise classify by `os.path.isfile`. -/
def handle_file (bl : PyStr → Bool) (fs : FSys) (s : LState) (fn : PyStr) : LState :=
  if bl fn || fs.isdir fn || decide (fn ∈ s.files) || decide (fn ∈ s.nonExistent) then s
  else if fs.isfile fn then ⟨fn :: s.files, s.nonExistent⟩
  else ⟨s.files, fn :: s.nonExistent⟩

/-- `LogmanTrace.parse_log` with the ETW CSV decoding abstracted away:
`paths` stands for the sequence of drive-mapped, lowercased file paths that
`handle_FileIo_Create` hands to `_handle_file` (the only event handler that
touches the two sets); the final `os.path.realpath` resolution is applied
as in the source. -/
def parse_log (bl : PyStr → Bool) (fs : FSys) (paths : List PyStr) :
    List PyStr × List PyStr :=
  let s := paths.foldl (handle_file bl fs) ⟨[], []⟩
  (s.files.map fs.realpath, s.nonExistent.map fs.realpath)

end Logman

/-- Python string comparison (lexicographic by byte value), as used by
`sorted`. -/
def pyLe : PyStr → PyStr → Bool
  | [], _ => true
  | _ :: _, [] => false
  | a :: as_, b :: bs =>
    if a.toNat < b.toNat then true else if b.toNat < a.toNat then false else pyLe as_ bs

/-- One insertion step of an insertion sort with respect to `pyLe`. -/
def insertLe (x : PyStr) : List PyStr → List PyStr
  | [] => [x]
  | y :: ys => if pyLe x y then x :: y :: ys else y :: insertLe x ys

/-- Python `sorted` (ascending). -/
def pySortA : List PyStr → List PyStr
  | [] => []
  | x :: xs => insertLe x (pySortA xs)

/-- Python `sorted(..., reverse=True)`. -/
def pySortD (l : List PyStr) : List PyStr := (pySortA l).reverse

/-- Loop body of `relevant_files`, accumulating the `expected` suffixes and
the `unexpected` leftovers; `none` is the `assert f` failing on a path equal
to the root. -/
def rfGo (root : PyStr) : List PyStr → List PyStr → List PyStr → Option (List PyStr × List PyStr)
  | [], accE, accU => some (accE, accU)
  | f :: rest, accE, accU =>
    if root.isPrefixOf f then
      let f2 := f.drop root.length
      if f2 = [] then none else rfGo root rest (accE ++ [f2]) accU
    else rfGo root rest accE (accU ++ [f])

/-- `relevant_files(files, root)`: root-relative `expected` and absolute
`unexpected`, each returned as `sorted(set(...))`. -/
def relevant_files (files : List PyStr) (root : PyStr) : Option (List PyStr × List PyStr) :=
  (rfGo root files [] []).map (fun p => (pySortA p.1.dedup, pySortA p.2.dedup))

/-- The `not f.endswith(('.svn', '.pyc'))` filter of `extract_directories`. -/
def vcsOk (e : PyStr) : Bool := !(strEnds e ".svn" || strEnds e ".pyc")

/-- The `actual` set of one `extract_directories` iteration: the filtered
filesystem listing of `root/d`, each entry joined onto `d`. -/
def actualOf (listdir : PyStr → List PyStr) (root d : PyStr) : List PyStr :=
  ((listdir (Posixpath.join root d)).filter vcsOk).map (fun e => Posixpath.join d e)

/-- One iteration of the `extract_directories` loop: when the whole
filtered listing of `d` is present, replace it by the single entry `d/`. -/
def edStep (listdir : PyStr → List PyStr) (root : PyStr) (files : List PyStr) (d : PyStr) :
    List PyStr :=
  let actual := actualOf listdir root d
  if actual.all (fun x => decide (x ∈ files)) then
    let removed := files.filter (fun f => decide (f ∉ actual))
    if (d ++ ['/']) ∈ removed then removed else removed ++ [d ++ ['/']]
  else files

/-- `extract_directories(files, root)`: candidate directories are the
dirnames of the input paths, processed in reverse-sorted order (children
before parents); the result is returned sorted.  The filesystem's
`os.listdir` is the `listdir` parameter. -/
def extract_directories (listdir : PyStr → List PyStr) (files : List PyStr) (root : PyStr) :
    List PyStr :=
  let dirs := pySortD ((files.map Posixpath.dirname).dedup)
  pySortA (dirs.foldl (edStep listdir root) files.dedup)

/-- The `tracked` comprehension of `trace_inputs`: corrected paths with no
trailing separator and no space. -/
def tracked_files (corrected : List PyStr) : List PyStr :=
  corrected.filter (fun f => !endsSlash f && !(decide (' ' ∈ f)))

/-- The `untracked` comprehension of `trace_inputs`: corrected paths with a
trailing separator or containing a space. -/
def untracked_files (corrected : List PyStr) : List PyStr :=
  corrected.filter (fun f => endsSlash f || decide (' ' ∈ f))

example :
    Strace.parse_log (fun _ => false)
      ⟨fun p => decide (p = "/a".data), fun _ => false, id⟩
      ["1 chdir(\"/r\") = 0".data, "1 open(\"/a\", O_RDONLY) = 3".data,
       "1 open(\"f\", O_RDONLY) = 4".data] =
    some (["/a".data], ["/r/f".data]) := by decide

example :
    Dtrace.parse_log (fun _ => false)
      ⟨fun p => decide (p = "/a".data), fun _ => false, id⟩
      ["0 1:2 chdir(\"/r\") = 0".data, "1 1:2 open(\"/a\", 0, 0) = 0".data,
       "2 1:2 open_nocancel(\"g\", 0, 0) = 0".data] =
    some (["/a".data], ["/r/g".data]) := by decide

example :
    extract_directories (fun p => if p = "/r/a".data then ["f".data, "g".data] else [])
      ["a/f".data, "a/g".data] "/r".data = ["a/".data] := by decide

example :
    extract_directories (fun p => if p = "/r/a".data then ["f".data, "g".data] else [])
      ["a/f".data] "/r".data = ["a/f".data] := by decide

example :
    relevant_files ["/r/b".data, "/x/c".data, "/r/a".data] "/r/".data =
    some (["a".data, "b".data], ["/x/c".data]) := by decide

example : relevant_files ["/r/".data] "/r/".data = none := by decide

/-- The argument string `"m"` of a successful `chdir`/`open`/`rename`
record: the path surrounded by double quotes. -/
def quoteArg (m : PyStr) : PyStr := '"' :: m ++ ['"']

theorem alookup_aset_self [DecidableEq α] (k : α) (v : β) (l : List (α × β)) :
    alookup k (aset k v l) = some v := by
  induction l with
  | nil => simp [aset, alookup]
  | cons p rest ih => by_cases h : p.1 = k <;> simp [aset, alookup, h, ih]

theorem matchQuoted_quote (m : PyStr) (h : m ≠ []) (hn : m.all nonNl = true) :
    Strace.matchQuoted (quoteArg m) = some m := by
  unfold Strace.matchQuoted quoteArg
  have hm1 : 0 < m.length := List.length_pos.mpr h
  have h2 : 2 ≤ (m ++ ['"']).length := by
    rw [List.length_append]
    simp only [List.length_singleton]
    omega
  simp [h2, List.getLast?_concat, List.dropLast_concat, hn, h]

/-- Claim C8: among the rebased (`corrected`) paths of the orchestrator, the
`tracked` list holds exactly the members with no trailing separator and no
space, the `untracked` list exactly those with a trailing separator or a
space, and every corrected path lands in exactly one of the two lists. -/
theorem claim_C8 (corrected : List PyStr) (f : PyStr) (hf : f ∈ corrected) :
    (f ∈ tracked_files corrected ↔ (endsSlash f = false ∧ ' ' ∉ f))
    ∧ (f ∈ untracked_files corrected ↔ (endsSlash f = true ∨ ' ' ∈ f))
    ∧ ((f ∈ tracked_files corrected ∧ f ∉ untracked_files corrected)
       ∨ (f ∉ tracked_files corrected ∧ f ∈ untracked_files corrected)) := by
  have ht : f ∈ tracked_files corrected ↔ (endsSlash f = false ∧ ' ' ∉ f) := by
    simp [tracked_files, List.mem_filter, hf]
  have hu : f ∈ untracked_files corrected ↔ (endsSlash f = true ∨ ' ' ∈ f) := by
    simp [untracked_files, List.mem_filter, hf]
  refine ⟨ht, hu, ?_⟩
  by_cases h1 : endsSlash f = true <;> by_cases h2 : ' ' ∈ f <;>
    simp [ht, hu, h1, h2]

theorem claim_C8_witness :
    ("a b".data ∈ tracked_files ["a b".data] ↔ (endsSlash "a b".data = false ∧ ' ' ∉ "a b".data))
    ∧ ("a b".data ∈ untracked_files ["a b".data] ↔
        (endsSlash "a b".data = true ∨ ' ' ∈ "a b".data))
    ∧ (("a b".data ∈ tracked_files ["a b".data] ∧ "a b".data ∉ untracked_files ["a b".data])
       ∨ ("a b".data ∉ tracked_files ["a b".data] ∧
          "a b".data ∈ untracked_files ["a b".data])) :=
  claim_C8 ["a b".data] "a b".data (by decide)

/-- Claim C9: a `chdir` record whose result does not start with `0` makes
both the strace and the dtrace handler fail with an assertion error
(`none`); the chdir is neither applied to the per-pid cwd map nor silently
skipped. -/
theorem claim_C9 (s : SState) (t : DState) (pid : Int) (args res : PyStr)
    (h : pyStarts res "0" = false) :
    Strace.handle_chdir s pid args res = none ∧ Dtrace.handle_chdir t pid args res = none := by
  unfold Strace.handle_chdir Dtrace.handle_chdir
  simp [h]

theorem claim_C9_witness :
    Strace.handle_chdir Strace.init 1 (quoteArg "/a".data) "-1 ENOENT".data = none
    ∧ Dtrace.handle_chdir Dtrace.init 1 (quoteArg "/a".data) "-1 ENOENT".data = none :=
  claim_C9 Strace.init Dtrace.init 1 (quoteArg "/a".data) "-1 ENOENT".data (by decide)

/-- Claim C10: in the dtrace parser every file event — `open`,
`open_nocancel` and (for well-formed arguments) `rename` — whose result
string starts with `-1` or with `2` is dropped before path resolution: the
state, hence both path sets and the per-pid cwd map, is returned
unchanged. -/
theorem claim_C10 (bl : PyStr → Bool) (fs : FSys) (s : DState) (pid : Int)
    (args res fp fl a b : PyStr)
    (hres : pyStarts res "-1" = true ∨ pyStarts res "2" = true) :
    Dtrace.handle_file bl fs s pid fp res = some s
    ∧ (Dtrace.matchOpenArgs args = some (fp, fl) →
        Dtrace.handle_open bl fs s pid args res = some s)
    ∧ (Dtrace.matchOpenArgs args = some (fp, fl) →
        Dtrace.handle_open_nocancel bl fs s pid args res = some s)
    ∧ (Strace.matchRenameArgs args = some (a, b) →
        Dtrace.handle_rename bl fs s pid args res = some s) := by
  have hf : ∀ q : PyStr, Dtrace.handle_file bl fs s pid q res = some s := by
    intro q
    unfold Dtrace.handle_file
    rcases hres with h | h <;> simp [h]
  refine ⟨hf fp, ?_, ?_, ?_⟩
  · intro hargs
    unfold Dtrace.handle_open
    simp only [hargs, hf]
    split <;> rfl
  · intro hargs
    unfold Dtrace.handle_open_nocancel Dtrace.handle_open
    simp only [hargs, hf]
    split <;> rfl
  · intro hargs
    unfold Dtrace.handle_rename
    simp only [hargs, hf]

theorem claim_C10_witness :
    Dtrace.handle_file (fun _ => false) ⟨fun _ => true, fun _ => false, id⟩ Dtrace.init 1
      "/a".data "2".data = some Dtrace.init
    ∧ (Dtrace.matchOpenArgs "\"/a\", 0, 0".data = some ("/a".data, "0".data) →
        Dtrace.handle_open (fun _ => false) ⟨fun _ => true, fun _ => false, id⟩ Dtrace.init 1
          "\"/a\", 0, 0".data "2".data = some Dtrace.init)
    ∧ (Dtrace.matchOpenArgs "\"/a\", 0, 0".data = some ("/a".data, "0".data) →
        Dtrace.handle_open_nocancel (fun _ => false) ⟨fun _ => true, fun _ => false, id⟩
          Dtrace.init 1 "\"/a\", 0, 0".data "2".data = some Dtrace.init)
    ∧ (Strace.matchRenameArgs "\"/a\", 0, 0".data = some ("/a".data, "/b".data) →
        Dtrace.handle_rename (fun _ => false) ⟨fun _ => true, fun _ => false, id⟩ Dtrace.init 1
          "\"/a\", 0, 0".data "2".data = some Dtrace.init) :=
  claim_C10 (fun _ => false) ⟨fun _ => true, fun _ => false, id⟩ Dtrace.init 1
    "\"/a\", 0, 0".data "2".data "/a".data "0".data "/a".data "/b".data (Or.inr (by decide))

/-- Claim C5: a successful `chdir` with an absolute argument replaces the
pid's cwd, a relative argument joins onto the previous cwd, and two
successive relative chdirs compose left-to-right — in both the strace and
the dtrace handler. -/
theorem claim_C5 :
    (∀ (s : SState) (pid : Int) (m res : PyStr), m ≠ [] → m.all nonNl = true →
      pyStarts res "0" = true → pyStarts m "/" = true →
      Strace.handle_chdir s pid (quoteArg m) res =
        some ⟨aset pid m s.cwd, s.files, s.nonExistent, s.pending⟩)
    ∧ (∀ (s : SState) (pid : Int) (m c res : PyStr), m ≠ [] → m.all nonNl = true →
      pyStarts res "0" = true → pyStarts m "/" = false → alookup pid s.cwd = some c →
      Strace.handle_chdir s pid (quoteArg m) res =
        some ⟨aset pid (Posixpath.join c m) s.cwd, s.files, s.nonExistent, s.pending⟩)
    ∧ (∀ (s : SState) (pid : Int) (r1 r2 c res1 res2 : PyStr),
      r1 ≠ [] → r1.all nonNl = true → r2 ≠ [] → r2.all nonNl = true →
      pyStarts res1 "0" = true → pyStarts res2 "0" = true →
      pyStarts r1 "/" = false → pyStarts r2 "/" = false → alookup pid s.cwd = some c →
      ∃ s2, (Strace.handle_chdir s pid (quoteArg r1) res1).bind
              (fun s1 => Strace.handle_chdir s1 pid (quoteArg r2) res2) = some s2
        ∧ alookup pid s2.cwd = some (Posixpath.join (Posixpath.join c r1) r2))
    ∧ (∀ (t : DState) (pid : Int) (m res : PyStr), m ≠ [] → m.all nonNl = true →
      pyStarts res "0" = true → pyStarts m "/" = true →
      Dtrace.handle_chdir t pid (quoteArg m) res =
        some ⟨aset pid m t.cwd, t.files, t.nonExistent⟩)
    ∧ (∀ (t : DState) (pid : Int) (m c res : PyStr), m ≠ [] → m.all nonNl = true →
      pyStarts res "0" = true → pyStarts m "/" = false → alookup pid t.cwd = some c →
      Dtrace.handle_chdir t pid (quoteArg m) res =
        some ⟨aset pid (Posixpath.join c m) t.cwd, t.files, t.nonExistent⟩)
    ∧ (∀ (t : DState) (pid : Int) (r1 r2 c res1 res2 : PyStr),
      r1 ≠ [] → r1.all nonNl = true → r2 ≠ [] → r2.all nonNl = true →
      pyStarts res1 "0" = true → pyStarts res2 "0" = true →
      pyStarts r1 "/" = false → pyStarts r2 "/" = false → alookup pid t.cwd = some c →
      ∃ t2, (Dtrace.handle_chdir t pid (quoteArg r1) res1).bind
              (fun t1 => Dtrace.handle_chdir t1 pid (quoteArg r2) res2) = some t2
        ∧ alookup pid t2.cwd = some (Posixpath.join (Posixpath.join c r1) r2)) := by
  have sAbs : ∀ (s : SState) (pid : Int) (m res : PyStr), m ≠ [] → m.all nonNl = true →
      pyStarts res "0" = true → pyStarts m "/" = true →
      Strace.handle_chdir s pid (quoteArg m) res =
        some ⟨aset pid m s.cwd, s.files, s.nonExistent, s.pending⟩ := by
    intro s pid m res hm hn h0 habs
    unfold Strace.handle_chdir
    rw [matchQuoted_quote m hm hn]
    simp [h0, habs]
  have sRel : ∀ (s : SState) (pid : Int) (m c res : PyStr), m ≠ [] → m.all nonNl = true →
      pyStarts res "0" = true → pyStarts m "/" = false → alookup pid s.cwd = some c →
      Strace.handle_chdir s pid (quoteArg m) res =
        some ⟨aset pid (Posixpath.join c m) s.cwd, s.files, s.nonExistent, s.pending⟩ := by
    intro s pid m c res hm hn h0 hrel hc
    unfold Strace.handle_chdir
    rw [matchQuoted_quote m hm hn]
    simp [h0, hrel, hc]
  have dAbs : ∀ (t : DState) (pid : Int) (m res : PyStr), m ≠ [] → m.all nonNl = true →
      pyStarts res "0" = true → pyStarts m "/" = true →
      Dtrace.handle_chdir t pid (quoteArg m) res =
        some ⟨aset pid m t.cwd, t.files, t.nonExistent⟩ := by
    intro t pid m res hm hn h0 habs
    unfold Dtrace.handle_chdir
    rw [matchQuoted_quote m hm hn]
    simp [h0, habs]
  have dRel : ∀ (t : DState) (pid : Int) (m c res : PyStr), m ≠ [] → m.all nonNl = true →
      pyStarts res "0" = true → pyStarts m "/" = false → alookup pid t.cwd = some c →
      Dtrace.handle_chdir t pid (quoteArg m) res =
        some ⟨aset pid (Posixpath.join c m) t.cwd, t.files, t.nonExistent⟩ := by
    intro t pid m c res hm hn h0 hrel hc
    unfold Dtrace.handle_chdir
    rw [matchQuoted_quote m hm hn]
    simp [h0, hrel, hc]
  refine ⟨sAbs, sRel, ?_, dAbs, dRel, ?_⟩
  · intro s pid r1 r2 c res1 res2 h1 hn1 h2 hn2 hr1 hr2 hcs1 hcs2 hc
    refine ⟨⟨aset pid (Posixpath.join (Posixpath.join c r1) r2)
        (aset pid (Posixpath.join c r1) s.cwd), s.files, s.nonExistent, s.pending⟩, ?_, ?_⟩
    · rw [sRel s pid r1 c res1 h1 hn1 hr1 hcs1 hc]
      exact sRel _ pid r2 (Posixpath.join c r1) res2 h2 hn2 hr2 hcs2
        (alookup_aset_self pid (Posixpath.join c r1) s.cwd)
    · exact alookup_aset_self pid _ _
  · intro t pid r1 r2 c res1 res2 h1 hn1 h2 hn2 hr1 hr2 hcs1 hcs2 hc
    refine ⟨⟨aset pid (Posixpath.join (Posixpath.join c r1) r2)
        (aset pid (Posixpath.join c r1) t.cwd), t.files, t.nonExistent⟩, ?_, ?_⟩
    · rw [dRel t pid r1 c res1 h1 hn1 hr1 hcs1 hc]
      exact dRel _ pid r2 (Posixpath.join c r1) res2 h2 hn2 hr2 hcs2
        (alookup_aset_self pid (Posixpath.join c r1) t.cwd)
    · exact alookup_aset_self pid _ _

theorem claim_C5_witness :
    Strace.handle_chdir ⟨[(1, "/r".data)], [], [], []⟩ 1 (quoteArg "a".data) "0".data =
      some ⟨aset 1 (Posixpath.join "/r".data "a".data) [(1, "/r".data)], [], [], []⟩ :=
  claim_C5.2.1 ⟨[(1, "/r".data)], [], [], []⟩ 1 "a".data "/r".data "0".data
    (by decide) (by decide) (by decide) (by decide) (by decide)

/-- The syscall names with a `handle_` method on `Strace._Context` (also the
`-e trace=...` set passed to strace by `gen_trace`). -/
def strace_syscalls : List PyStr :=
  ["chdir".data, "clone".data, "execve".data, "exit_group".data, "fork".data,
   "open".data, "rename".data, "stat64".data, "vfork".data]

/-- The record names with a `handle_` method on `Dtrace._Context` (after the
`'-'` to `'_'` rewriting of the dispatch). -/
def dtrace_handlers : List PyStr :=
  ["dtrace_BEGIN".data, "proc_start".data, "proc_exit".data, "chdir".data,
   "open_nocancel".data, "open".data, "rename".data]

/-- Counterexample to claim C3: the dtrace `_Context.on_line` dispatch has
`self._handle_ignored` as its `getattr` fallback, so the header line
`0 1:2 bogus() = 0`, whose function name `bogus` has no registered handler,
is processed successfully with the state unchanged instead of being a fatal
parse error. -/
theorem claim_C3_cex :
    Dtrace.on_line (fun _ => false) ⟨fun _ => false, fun _ => false, id⟩ Dtrace.init
      "0 1:2 bogus() = 0".data = some Dtrace.init := by decide

/-- Claim C3 as amended: an unknown syscall name is fatal in the strace
grammar (the `getattr` dispatch has no fallback, so the `AttributeError`
aborts parsing), while in the dtrace grammar an unknown name falls back to
`_handle_ignored`, which logs at debug level and leaves the state
unchanged. -/
theorem claim_C3_amended :
    (∀ (bl : PyStr → Bool) (fs : FSys) (s : SState) (line : PyStr) (pid : Nat)
       (fn args res : PyStr),
      Strace.matchSignal (pyStrip line) = false →
      Strace.matchKilled (pyStrip line) = none →
      strEnds (pyStrip line) " <unfinished ...>" = false →
      Strace.matchUnavail (pyStrip line) = false →
      Strace.matchResumedLine (pyStrip line) = none →
      Strace.matchHeaderLine (pyStrip line) = some (pid, fn, args, res) →
      fn ∉ strace_syscalls →
      Strace.on_line bl fs s line = none)
    ∧ (∀ (bl : PyStr → Bool) (fs : FSys) (t : DState) (line : PyStr) (ppid pid : Nat)
       (fn args res : PyStr),
      Dtrace.matchHeaderLine line = some (ppid, pid, fn, args, res) →
      Dtrace.replaceDash fn ∉ dtrace_handlers →
      Dtrace.on_line bl fs t line = some t) := by
  constructor
  · intro bl fs s line pid fn args res hsig hkil hunf hunav hres hhead hreg
    have n : ∀ x ∈ strace_syscalls, fn ≠ x := fun x hx heq => hreg (heq ▸ hx)
    have n1 := n "chdir".data (by decide)
    have n2 := n "clone".data (by decide)
    have n3 := n "execve".data (by decide)
    have n4 := n "exit_group".data (by decide)
    have n5 := n "fork".data (by decide)
    have n6 := n "open".data (by decide)
    have n7 := n "rename".data (by decide)
    have n8 := n "stat64".data (by decide)
    have n9 := n "vfork".data (by decide)
    unfold Strace.on_line
    simp only [hsig, hkil, hunf, hunav, hres, Bool.false_eq_true, if_false]
    unfold Strace.dispatch
    simp [hhead, n1, n2, n3, n4, n5, n6, n7, n8, n9]
  · intro bl fs t line ppid pid fn args res hhead hreg
    have n : ∀ x ∈ dtrace_handlers, Dtrace.replaceDash fn ≠ x := fun x hx heq => hreg (heq ▸ hx)
    have n1 := n "dtrace_BEGIN".data (by decide)
    have n2 := n "proc_start".data (by decide)
    have n3 := n "proc_exit".data (by decide)
    have n4 := n "chdir".data (by decide)
    have n5 := n "open_nocancel".data (by decide)
    have n6 := n "open".data (by decide)
    have n7 := n "rename".data (by decide)
    unfold Dtrace.on_line
    simp [hhead, n1, n2, n3, n4, n5, n6, n7]

theorem claim_C3_amended_witness :
    Strace.on_line (fun _ => false) ⟨fun _ => false, fun _ => false, id⟩ Strace.init
      "1 bogus(y) = 0".data = none
    ∧ Dtrace.on_line (fun _ => false) ⟨fun _ => false, fun _ => false, id⟩ Dtrace.init
      "0 1:2 weird() = 0".data = some Dtrace.init :=
  ⟨claim_C3_amended.1 (fun _ => false) ⟨fun _ => false, fun _ => false, id⟩ Strace.init
      "1 bogus(y) = 0".data 1 "bogus".data "y".data "0".data (by decide) (by decide)
      (by decide) (by decide) (by decide) (by decide) (by decide),
   claim_C3_amended.2 (fun _ => false) ⟨fun _ => false, fun _ => false, id⟩ Dtrace.init
      "0 1:2 weird() = 0".data 1 2 "weird".data [] "0".data (by decide) (by decide)⟩

theorem mem_of_getLast?_eq (l : PyStr) (x : Char) (h : l.getLast? = some x) : x ∈ l := by
  rcases List.mem_getLast?_eq_getLast (l := l) (x := x) (by rw [h]; rfl) with ⟨hne, hx⟩
  rw [hx]
  exact List.getLast_mem hne

theorem splitSlash_ne_nil (p : PyStr) : Posixpath.splitSlash p ≠ [] := by
  induction p with
  | nil => simp [Posixpath.splitSlash]
  | cons c rest ih =>
    unfold Posixpath.splitSlash
    split
    · simp
    · split <;> simp

theorem splitSlash_no_slash (p : PyStr) : ∀ g ∈ Posixpath.splitSlash p, '/' ∉ g := by
  induction p with
  | nil =>
    intro g hg
    simp [Posixpath.splitSlash] at hg
    simp [hg]
  | cons c rest ih =>
    intro g hg
    unfold Posixpath.splitSlash at hg
    by_cases hc : c = '/'
    · rw [if_pos hc] at hg
      rcases List.mem_cons.mp hg with rfl | hg2
      · simp
      · exact ih g hg2
    · rw [if_neg hc] at hg
      cases hsp : Posixpath.splitSlash rest with
      | nil => exact absurd hsp (splitSlash_ne_nil rest)
      | cons g0 gs =>
        rw [hsp] at hg
        rcases List.mem_cons.mp hg with rfl | hg2
        · intro hmem
          rcases List.mem_cons.mp hmem with h1 | h1
          · exact hc h1.symm
          · exact ih g0 (by rw [hsp]; exact List.mem_cons_self _ _) h1
        · exact ih g (by rw [hsp]; exact List.mem_cons_of_mem _ hg2)

theorem endsSlash_of_no_slash (a : PyStr) (_h1 : a ≠ []) (h2 : '/' ∉ a) :
    endsSlash a = false := by
  cases hl : a.getLast? with
  | none => simp [endsSlash, hl]
  | some x =>
    have hx : x ∈ a := mem_of_getLast?_eq a x hl
    have hne : x ≠ '/' := fun he => h2 (he ▸ hx)
    simp [endsSlash, hl, hne]

theorem pyStarts_slash_false (b : PyStr) (h : '/' ∉ b) : pyStarts b "/" = false := by
  cases b with
  | nil => rfl
  | cons c rest =>
    have hc : c ≠ '/' := fun he => h (he ▸ List.mem_cons_self c rest)
    have : ('/' : Char) ≠ c := fun he => hc he.symm
    simp [pyStarts, List.isPrefixOf, this]

theorem join_not_endsSlash (a b : PyStr) (hb : b ≠ []) (hnb : '/' ∉ b) :
    endsSlash (Posixpath.join a b) = false := by
  unfold Posixpath.join
  simp only [pyStarts_slash_false b hnb, Bool.false_eq_true, if_false]
  have hbody : endsSlash (a ++ b) = false := by
    have he := endsSlash_of_no_slash b hb hnb
    unfold endsSlash at he ⊢
    rw [List.getLast?_append_of_ne_nil a hb]
    exact he
  split
  · exact hbody
  · have he := endsSlash_of_no_slash b hb hnb
    unfold endsSlash at he ⊢
    rw [List.append_cons, List.getLast?_append_of_ne_nil _ hb]
    exact he

theorem foldl_join_not_endsSlash (l : List PyStr) : ∀ (a : PyStr), l ≠ [] →
    (∀ x ∈ l, x ≠ [] ∧ '/' ∉ x) → endsSlash (l.foldl Posixpath.join a) = false := by
  induction l with
  | nil => intro a h _; exact absurd rfl h
  | cons x xs ih =>
    intro a _ hall
    cases xs with
    | nil =>
      simp only [List.foldl_cons, List.foldl_nil]
      exact join_not_endsSlash a x (hall x (by simp)).1 (hall x (by simp)).2
    | cons y ys =>
      simp only [List.foldl_cons]
      exact ih (Posixpath.join a x) (by simp) (fun z hz => hall z (List.mem_cons_of_mem _ hz))

theorem joinList_not_endsSlash (l : List PyStr) (hne : l ≠ [])
    (hall : ∀ x ∈ l, x ≠ [] ∧ '/' ∉ x) : endsSlash (Posixpath.joinList l) = false := by
  cases l with
  | nil => exact absurd rfl hne
  | cons a rest =>
    unfold Posixpath.joinList
    cases rest with
    | nil =>
      simp only [List.foldl_nil]
      exact endsSlash_of_no_slash a (hall a (by simp)).1 (hall a (by simp)).2
    | cons b bs =>
      exact foldl_join_not_endsSlash (b :: bs) a (by simp)
        (fun z hz => hall z (List.mem_cons_of_mem _ hz))

/-- The bare `posixpath.relpath` never produces a trailing slash: its output
is either `.` or a `/`-join of nonempty slash-free components. -/
theorem relpath_not_endsSlash (cwdir p start out : PyStr)
    (h : Posixpath.relpath cwdir p start = some out) : endsSlash out = false := by
  unfold Posixpath.relpath at h
  split at h
  · exact absurd h (by simp)
  · dsimp only at h
    split at h
    · rw [Option.some.injEq] at h
      subst h
      decide
    · rw [Option.some.injEq] at h
      subst h
      apply joinList_not_endsSlash
      · assumption
      · intro x hx
        rcases List.mem_append.mp hx with hx2 | hx2
        · rw [List.eq_of_mem_replicate hx2]
          exact ⟨by simp, by decide⟩
        · have hx3 := List.mem_filter.mp (List.mem_of_mem_drop hx2)
          refine ⟨by simpa using hx3.2, ?_⟩
          exact splitSlash_no_slash _ x hx3.1

/-- Claim C7: `posix_relpath(p, base)` ends with `/` exactly when `p` ends
with `/` (for a nonempty path `p`, on which `posixpath.relpath` does not
raise). -/
theorem claim_C7 (cwdir p base : PyStr) (hp : p ≠ []) :
    ∃ out, posix_relpath cwdir p base = some out ∧ endsSlash out = endsSlash p := by
  have hrp : ∃ r, Posixpath.relpath cwdir p base = some r := by
    unfold Posixpath.relpath
    rw [if_neg hp]
    dsimp only
    split
    · exact ⟨_, rfl⟩
    · exact ⟨_, rfl⟩
  obtain ⟨r, hr⟩ := hrp
  have hrf := relpath_not_endsSlash cwdir p base r hr
  unfold posix_relpath
  rw [hr]
  by_cases hps : endsSlash p = true
  · refine ⟨r ++ ['/'], ?_, ?_⟩
    · simp [hps]
    · rw [hps]
      unfold endsSlash
      rw [List.getLast?_concat]
      simp
  · have hps' : endsSlash p = false := by
      revert hps
      cases endsSlash p <;> simp
    refine ⟨r, ?_, ?_⟩
    · simp [hps']
    · rw [hps', hrf]

theorem claim_C7_witness :
    ∃ out, posix_relpath "/c".data "/a/b/".data "/a".data = some out
      ∧ endsSlash out = endsSlash "/a/b/".data :=
  claim_C7 "/c".data "/a/b/".data "/a".data (by decide)

theorem pyLe_cons (x y : Char) (xs ys : PyStr) :
    pyLe (x :: xs) (y :: ys) = true ↔
      (x.toNat < y.toNat ∨ (x.toNat = y.toNat ∧ pyLe xs ys = true)) := by
  constructor
  · intro h
    by_cases h1 : x.toNat < y.toNat
    · exact Or.inl h1
    · by_cases h2 : y.toNat < x.toNat
      · exact absurd h (by simp [pyLe, h1, h2])
      · exact Or.inr ⟨by omega, by simpa [pyLe, h1, h2] using h⟩
  · rintro (h1 | ⟨he, hr⟩)
    · simp [pyLe, h1]
    · have h1 : ¬ x.toNat < y.toNat := by omega
      have h2 : ¬ y.toNat < x.toNat := by omega
      simp [pyLe, h1, h2, hr]

theorem pyLe_total (a : PyStr) : ∀ b : PyStr, pyLe a b = true ∨ pyLe b a = true := by
  induction a with
  | nil => intro b; left; rfl
  | cons x xs ih =>
    intro b
    cases b with
    | nil => right; rfl
    | cons y ys =>
      rcases Nat.lt_trichotomy x.toNat y.toNat with h | h | h
      · left; rw [pyLe_cons]; exact Or.inl h
      · rcases ih ys with h2 | h2
        · left; rw [pyLe_cons]; exact Or.inr ⟨h, h2⟩
        · right; rw [pyLe_cons]; exact Or.inr ⟨h.symm, h2⟩
      · right; rw [pyLe_cons]; exact Or.inl h

theorem pyLe_trans (a : PyStr) : ∀ b c : PyStr,
    pyLe a b = true → pyLe b c = true → pyLe a c = true := by
  induction a with
  | nil => intro b c _ _; rfl
  | cons x xs ih =>
    intro b c hab hbc
    cases b with
    | nil => exact absurd hab (by simp [pyLe])
    | cons y ys =>
      cases c with
      | nil => exact absurd hbc (by simp [pyLe])
      | cons z zs =>
        rw [pyLe_cons] at hab hbc ⊢
        rcases hab with h1 | ⟨h1, h1'⟩ <;> rcases hbc with h2 | ⟨h2, h2'⟩
        · exact Or.inl (h1.trans h2)
        · exact Or.inl (h2 ▸ h1)
        · exact Or.inl (h1 ▸ h2)
        · exact Or.inr ⟨h1.trans h2, ih ys zs h1' h2'⟩

theorem insertLe_perm (x : PyStr) (l : List PyStr) : (insertLe x l).Perm (x :: l) := by
  induction l with
  | nil => exact List.Perm.refl _
  | cons y ys ih =>
    unfold insertLe
    split
    · exact List.Perm.refl _
    · exact (List.Perm.cons y ih).trans (List.Perm.swap x y ys)

theorem pySortA_perm (l : List PyStr) : (pySortA l).Perm l := by
  induction l with
  | nil => exact List.Perm.refl _
  | cons x xs ih => exact (insertLe_perm x (pySortA xs)).trans (List.Perm.cons x ih)

theorem mem_pySortA (x : PyStr) (l : List PyStr) : x ∈ pySortA l ↔ x ∈ l :=
  (pySortA_perm l).mem_iff

theorem nodup_pySortA (l : List PyStr) (h : l.Nodup) : (pySortA l).Nodup :=
  (pySortA_perm l).nodup_iff.mpr h

theorem sorted_insertLe (x : PyStr) (l : List PyStr)
    (h : l.Pairwise (fun a b => pyLe a b = true)) :
    (insertLe x l).Pairwise (fun a b => pyLe a b = true) := by
  induction l with
  | nil => simp [insertLe]
  | cons y ys ih =>
    unfold insertLe
    rcases List.pairwise_cons.mp h with ⟨hy, hys⟩
    split
    · rename_i hxy
      refine List.pairwise_cons.mpr ⟨?_, h⟩
      intro z hz
      rcases List.mem_cons.mp hz with rfl | hz2
      · exact hxy
      · exact pyLe_trans x y z hxy (hy z hz2)
    · rename_i hxy
      have hyx : pyLe y x = true := by
        rcases pyLe_total x y with h2 | h2
        · exact absurd h2 hxy
        · exact h2
      refine List.pairwise_cons.mpr ⟨?_, ih hys⟩
      intro z hz
      have hz3 := (insertLe_perm x ys).mem_iff.mp hz
      rcases List.mem_cons.mp hz3 with rfl | hz2
      · exact hyx
      · exact hy z hz2

theorem sorted_pySortA (l : List PyStr) :
    (pySortA l).Pairwise (fun a b => pyLe a b = true) := by
  induction l with
  | nil => simp [pySortA]
  | cons x xs ih => exact sorted_insertLe x (pySortA xs) ih

theorem rfGo_eq (root : PyStr) (files : List PyStr) : ∀ (accE accU : List PyStr),
    (∀ f ∈ files, root.isPrefixOf f = true → f.drop root.length ≠ []) →
    rfGo root files accE accU =
      some (accE ++ (files.filter (fun f => root.isPrefixOf f)).map
              (fun f => f.drop root.length),
            accU ++ files.filter (fun f => !root.isPrefixOf f)) := by
  induction files with
  | nil => intro accE accU _; simp [rfGo]
  | cons f rest ih =>
    intro accE accU hok
    unfold rfGo
    by_cases hpre : root.isPrefixOf f = true
    · have hne := hok f (List.mem_cons_self f rest) hpre
      rw [if_pos hpre]
      dsimp only
      rw [if_neg hne, ih (accE ++ [f.drop root.length]) accU
        (fun g hg hp => hok g (List.mem_cons_of_mem f hg) hp)]
      simp [List.filter_cons, hpre, List.append_assoc]
    · have hpre' : root.isPrefixOf f = false := by
        revert hpre
        cases root.isPrefixOf f <;> simp
      rw [if_neg hpre]
      rw [ih accE (accU ++ [f]) (fun g hg hp => hok g (List.mem_cons_of_mem f hg) hp)]
      simp [List.filter_cons, hpre', List.append_assoc]

/-- Counterexample to claim C4: when the input contains a path equal to the
root itself (an absolute path, the root ending in a separator), the stripped
suffix is empty and the `assert f` in `relevant_files` fails — the function
raises instead of returning the stated partition. -/
theorem claim_C4_cex : relevant_files ["/r/".data] "/r/".data = none := by decide

/-- Claim C4 as amended: for absolute paths and a root ending in a
separator, provided no path equals the root itself (that case asserts),
`relevant_files` returns `(expected, unexpected)` with `expected` exactly
the root-stripped suffixes of the paths starting with the root and
`unexpected` exactly the rest, both sorted (by byte value, Python's
`sorted`) and deduplicated; the embedding is pure, so the input collection
is unchanged. -/
theorem claim_C4_amended (files : List PyStr) (root : PyStr)
    (_habs : ∀ f ∈ files, pyStarts f "/" = true) (_hroot : endsSlash root = true)
    (hne : ∀ f ∈ files, f ≠ root) :
    ∃ exp unexp, relevant_files files root = some (exp, unexp)
      ∧ (∀ x, x ∈ exp ↔ ∃ f ∈ files, root.isPrefixOf f = true ∧ x = f.drop root.length)
      ∧ (∀ x, x ∈ unexp ↔ x ∈ files ∧ root.isPrefixOf x = false)
      ∧ exp.Pairwise (fun a b => pyLe a b = true) ∧ exp.Nodup
      ∧ unexp.Pairwise (fun a b => pyLe a b = true) ∧ unexp.Nodup := by
  have hok : ∀ f ∈ files, root.isPrefixOf f = true → f.drop root.length ≠ [] := by
    intro f hf hpre hdrop
    apply hne f hf
    rcases List.isPrefixOf_iff_prefix.mp hpre with ⟨t, ht⟩
    have ht0 : t = [] := by
      rw [← ht, List.drop_left] at hdrop
      exact hdrop
    rw [← ht, ht0, List.append_nil]
  unfold relevant_files
  rw [rfGo_eq root files [] [] hok]
  simp only [Option.map_some', List.nil_append]
  refine ⟨_, _, rfl, ?_, ?_, sorted_pySortA _, nodup_pySortA _ (List.nodup_dedup _),
    sorted_pySortA _, nodup_pySortA _ (List.nodup_dedup _)⟩
  · intro x
    rw [mem_pySortA, List.mem_dedup, List.mem_map]
    constructor
    · rintro ⟨f, hf, rfl⟩
      have hf2 := List.mem_filter.mp hf
      exact ⟨f, hf2.1, hf2.2, rfl⟩
    · rintro ⟨f, hf, hpre, rfl⟩
      exact ⟨f, List.mem_filter.mpr ⟨hf, hpre⟩, rfl⟩
  · intro x
    rw [mem_pySortA, List.mem_dedup, List.mem_filter]
    constructor
    · rintro ⟨hf, hpre⟩
      refine ⟨hf, ?_⟩
      revert hpre
      cases root.isPrefixOf x <;> simp
    · rintro ⟨hf, hpre⟩
      exact ⟨hf, by rw [hpre]; rfl⟩

theorem claim_C4_amended_witness :
    ∃ exp unexp, relevant_files ["/r/a".data, "/x".data] "/r/".data = some (exp, unexp)
      ∧ (∀ x, x ∈ exp ↔ ∃ f ∈ ["/r/a".data, "/x".data],
          "/r/".data.isPrefixOf f = true ∧ x = f.drop "/r/".data.length)
      ∧ (∀ x, x ∈ unexp ↔ x ∈ ["/r/a".data, "/x".data] ∧ "/r/".data.isPrefixOf x = false)
      ∧ exp.Pairwise (fun a b => pyLe a b = true) ∧ exp.Nodup
      ∧ unexp.Pairwise (fun a b => pyLe a b = true) ∧ unexp.Nodup :=
  claim_C4_amended ["/r/a".data, "/x".data] "/r/".data (by decide) (by decide) (by decide)

/-- Claim C6: an strace line ending in the `' <unfinished ...>'` marker is
stashed under its `(pid string, function)` key as the stripped line with the
marker removed, and a later resumed line for the same key dispatches on the
reconstruction: the stored prefix concatenated with the resumed line's
tail. -/
theorem claim_C6 :
    (∀ (bl : PyStr → Bool) (fs : FSys) (s : SState) (raw pfx : PyStr) (key : PyStr × PyStr),
      pyStrip raw = pfx ++ " <unfinished ...>".data →
      Strace.matchSignal (pyStrip raw) = false →
      Strace.matchKilled (pyStrip raw) = none →
      Strace.matchUnfin pfx = some key →
      Strace.on_line bl fs s raw =
        some ⟨s.cwd, s.files, s.nonExistent, aset key pfx s.pending⟩)
    ∧ (∀ (bl : PyStr → Bool) (fs : FSys) (s : SState) (raw pfx tl : PyStr) (key : PyStr × PyStr),
      alookup key s.pending = some pfx →
      Strace.matchSignal (pyStrip raw) = false →
      Strace.matchKilled (pyStrip raw) = none →
      strEnds (pyStrip raw) " <unfinished ...>" = false →
      Strace.matchUnavail (pyStrip raw) = false →
      Strace.matchResumedLine (pyStrip raw) = some (key.1, key.2, tl) →
      Strace.on_line bl fs s raw =
        Strace.dispatch bl fs ⟨s.cwd, s.files, s.nonExistent, aerase key s.pending⟩
          (pfx ++ tl)) := by
  constructor
  · intro bl fs s raw pfx key hstrip hsig hkil hmat
    have hsfx : strEnds (pfx ++ " <unfinished ...>".data) " <unfinished ...>" = true := by
      unfold strEnds
      exact List.isSuffixOf_iff_suffix.mpr ⟨pfx, rfl⟩
    have hslen : (" <unfinished ...>".data).length = 17 := by decide
    have hlen : (pfx ++ " <unfinished ...>".data).length - 17 = pfx.length := by
      rw [List.length_append, hslen]
      omega
    have htake : (pfx ++ " <unfinished ...>".data).take pfx.length = pfx :=
      List.take_left _ _
    rw [hstrip] at hsig hkil
    unfold Strace.on_line
    rw [hstrip]
    simp only [hsig, Bool.false_eq_true, if_false, hkil, hsfx, if_true, hlen, htake, hmat]
  · intro bl fs s raw pfx tl key hpend hsig hkil hunf hunav hres
    unfold Strace.on_line
    simp only [hsig, Bool.false_eq_true, if_false, hkil, hunf, hunav, hres, Prod.mk.eta,
      hpend]

theorem claim_C6_witness :
    Strace.on_line (fun _ => false) ⟨fun _ => false, fun _ => false, id⟩ Strace.init
      "1 open(\"/a\", O_RDONLY <unfinished ...>".data =
      some ⟨[], [], [],
        aset ("1".data, "open".data) "1 open(\"/a\", O_RDONLY".data []⟩
    ∧ Strace.on_line (fun _ => false) ⟨fun _ => false, fun _ => false, id⟩
        ⟨[], [], [], [(("1".data, "open".data), "1 open(\"/a\", O_RDONLY".data)]⟩
        "1 <... open resumed> ) = 3".data =
      Strace.dispatch (fun _ => false) ⟨fun _ => false, fun _ => false, id⟩
        ⟨[], [], [],
          aerase ("1".data, "open".data)
            [(("1".data, "open".data), "1 open(\"/a\", O_RDONLY".data)]⟩
        ("1 open(\"/a\", O_RDONLY".data ++ ") = 3".data) :=
  ⟨claim_C6.1 (fun _ => false) ⟨fun _ => false, fun _ => false, id⟩ Strace.init
      "1 open(\"/a\", O_RDONLY <unfinished ...>".data "1 open(\"/a\", O_RDONLY".data
      ("1".data, "open".data) (by decide) (by decide) (by decide) (by decide),
   claim_C6.2 (fun _ => false) ⟨fun _ => false, fun _ => false, id⟩
      ⟨[], [], [], [(("1".data, "open".data), "1 open(\"/a\", O_RDONLY".data)]⟩
      "1 <... open resumed> ) = 3".data "1 open(\"/a\", O_RDONLY".data ") = 3".data
      ("1".data, "open".data) (by decide) (by decide) (by decide) (by decide) (by decide)
      (by decide)⟩

/-- Classification invariant of the strace context: every member of `files`
tests as a regular file, every member of `non_existent` does not. -/
def SGood (fs : FSys) (s : SState) : Prop :=
  (∀ p ∈ s.files, fs.isfile p = true) ∧ (∀ p ∈ s.nonExistent, fs.isfile p = false)

/-- Classification invariant of the dtrace context. -/
def DGood (fs : FSys) (t : DState) : Prop :=
  (∀ p ∈ t.files, fs.isfile p = true) ∧ (∀ p ∈ t.nonExistent, fs.isfile p = false)

/-- Classification invariant of the Windows context. -/
def LGood (fs : FSys) (u : LState) : Prop :=
  (∀ p ∈ u.files, fs.isfile p = true) ∧ (∀ p ∈ u.nonExistent, fs.isfile p = false)

theorem sgood_of_eq (fs : FSys) (s s' : SState) (hg : SGood fs s)
    (h1 : s'.files = s.files) (h2 : s'.nonExistent = s.nonExistent) : SGood fs s' := by
  constructor
  · rw [h1]; exact hg.1
  · rw [h2]; exact hg.2

theorem dgood_of_eq (fs : FSys) (t t' : DState) (hg : DGood fs t)
    (h1 : t'.files = t.files) (h2 : t'.nonExistent = t.nonExistent) : DGood fs t' := by
  constructor
  · rw [h1]; exact hg.1
  · rw [h2]; exact hg.2

theorem sgood_handle_file (bl : PyStr → Bool) (fs : FSys) (s : SState) (pid : Int)
    (fp res : PyStr) (s' : SState) (hg : SGood fs s)
    (h : Strace.handle_file bl fs s pid fp res = some s') : SGood fs s' := by
  unfold Strace.handle_file at h
  split at h
  · simp only [Option.some.injEq] at h; subst h; exact hg
  · split at h
    · exact absurd h (by simp)
    · split at h
      · simp only [Option.some.injEq] at h; subst h; exact hg
      · split at h
        · simp only [Option.some.injEq] at h; subst h; exact hg
        · split at h
          · rename_i hisf
            simp only [Option.some.injEq] at h
            subst h
            constructor
            · intro p hp
              rcases List.mem_cons.mp hp with rfl | hp2
              · exact hisf
              · exact hg.1 p hp2
            · exact hg.2
          · rename_i hisf
            simp only [Option.some.injEq] at h
            subst h
            constructor
            · exact hg.1
            · intro p hp
              rcases List.mem_cons.mp hp with rfl | hp2
              · revert hisf
                cases fs.isfile p <;> simp
              · exact hg.2 p hp2

theorem sfiles_handle_chdir (s : SState) (pid : Int) (args res : PyStr) (s' : SState)
    (h : Strace.handle_chdir s pid args res = some s') :
    s'.files = s.files ∧ s'.nonExistent = s.nonExistent := by
  unfold Strace.handle_chdir at h
  repeat' split at h
  all_goals first
    | (simp only [Option.some.injEq] at h; subst h; exact ⟨rfl, rfl⟩)
    | exact absurd h (by simp)

theorem sfiles_handle_clone (s : SState) (pid : Int) (res : PyStr) (s' : SState)
    (h : Strace.handle_clone s pid res = some s') :
    s'.files = s.files ∧ s'.nonExistent = s.nonExistent := by
  unfold Strace.handle_clone at h
  repeat' split at h
  all_goals first
    | (simp only [Option.some.injEq] at h; subst h; exact ⟨rfl, rfl⟩)
    | exact absurd h (by simp)

theorem sfiles_handle_exit_group (s : SState) (pid : Int) (s' : SState)
    (h : Strace.handle_exit_group s pid = some s') :
    s'.files = s.files ∧ s'.nonExistent = s.nonExistent := by
  unfold Strace.handle_exit_group at h
  repeat' split at h
  all_goals first
    | (simp only [Option.some.injEq] at h; subst h; exact ⟨rfl, rfl⟩)
    | exact absurd h (by simp)

theorem sgood_dispatch (bl : PyStr → Bool) (fs : FSys) (s : SState) (line : PyStr)
    (s' : SState) (hg : SGood fs s) (h : Strace.dispatch bl fs s line = some s') :
    SGood fs s' := by
  unfold Strace.dispatch at h
  split at h
  · exact absurd h (by simp)
  · split at h
    · have he := sfiles_handle_chdir _ _ _ _ _ h
      exact sgood_of_eq fs s s' hg he.1 he.2
    · split at h
      · have he := sfiles_handle_clone _ _ _ _ h
        exact sgood_of_eq fs s s' hg he.1 he.2
      · split at h
        · unfold Strace.handle_execve at h
          split at h
          · exact absurd h (by simp)
          · exact sgood_handle_file _ _ _ _ _ _ _ hg h
        · split at h
          · have he := sfiles_handle_exit_group _ _ _ h
            exact sgood_of_eq fs s s' hg he.1 he.2
          · split at h
            · exact absurd h (by simp)
            · split at h
              · unfold Strace.handle_open at h
                split at h
                · exact absurd h (by simp)
                · split at h
                  · simp only [Option.some.injEq] at h; subst h; exact hg
                  · exact sgood_handle_file _ _ _ _ _ _ _ hg h
              · split at h
                · unfold Strace.handle_rename at h
                  split at h
                  · exact absurd h (by simp)
                  · split at h
                    · exact absurd h (by simp)
                    · rename_i s1 hs1
                      exact sgood_handle_file _ _ _ _ _ _ _
                        (sgood_handle_file _ _ _ _ _ _ _ hg hs1) h
                · split at h
                  · exact absurd h (by simp)
                  · split at h
                    · exact absurd h (by simp)
                    · exact absurd h (by simp)

theorem sgood_on_line (bl : PyStr → Bool) (fs : FSys) (s : SState) (raw : PyStr)
    (s' : SState) (hg : SGood fs s) (h : Strace.on_line bl fs s raw = some s') :
    SGood fs s' := by
  unfold Strace.on_line at h
  dsimp only at h
  split at h
  · simp only [Option.some.injEq] at h; subst h; exact hg
  · split at h
    · have he := sfiles_handle_exit_group _ _ _ h
      exact sgood_of_eq fs s s' hg he.1 he.2
    · split at h
      · split at h
        · exact absurd h (by simp)
        · simp only [Option.some.injEq] at h
          subst h
          exact ⟨hg.1, hg.2⟩
      · split at h
        · simp only [Option.some.injEq] at h; subst h; exact hg
        · split at h
          · split at h
            · exact absurd h (by simp)
            · refine sgood_dispatch _ _ _ _ _ ?_ h
              exact ⟨hg.1, hg.2⟩
          · exact sgood_dispatch _ _ _ _ _ hg h

theorem sgood_run_lines (bl : PyStr → Bool) (fs : FSys) (lines : List PyStr) :
    ∀ (s : SState) (s' : SState), SGood fs s →
      Strace.run_lines bl fs s lines = some s' → SGood fs s' := by
  induction lines with
  | nil =>
    intro s s' hg h
    unfold Strace.run_lines at h
    simp only [Option.some.injEq] at h
    subst h
    exact hg
  | cons l ls ih =>
    intro s s' hg h
    unfold Strace.run_lines at h
    split at h
    · exact absurd h (by simp)
    · rename_i s2 hs2
      exact ih s2 s' (sgood_on_line _ _ _ _ _ hg hs2) h

theorem dgood_handle_file (bl : PyStr → Bool) (fs : FSys) (t : DState) (pid : Int)
    (fp res : PyStr) (t' : DState) (hg : DGood fs t)
    (h : Dtrace.handle_file bl fs t pid fp res = some t') : DGood fs t' := by
  unfold Dtrace.handle_file at h
  split at h
  · simp only [Option.some.injEq] at h; subst h; exact hg
  · split at h
    · exact absurd h (by simp)
    · dsimp only at h
      split at h
      · simp only [Option.some.injEq] at h; subst h; exact hg
      · split at h
        · simp only [Option.some.injEq] at h; subst h; exact hg
        · split at h
          · rename_i hisf
            simp only [Option.some.injEq] at h
            subst h
            constructor
            · intro p hp
              rcases List.mem_cons.mp hp with rfl | hp2
              · exact hisf
              · exact hg.1 p hp2
            · exact hg.2
          · rename_i hisf
            simp only [Option.some.injEq] at h
            subst h
            constructor
            · exact hg.1
            · intro p hp
              rcases List.mem_cons.mp hp with rfl | hp2
              · exact Bool.eq_false_iff.mpr hisf
              · exact hg.2 p hp2

theorem dfiles_handle_proc_start (t : DState) (ppid pid : Int) (res : PyStr) (t' : DState)
    (h : Dtrace.handle_proc_start t ppid pid res = some t') :
    t'.files = t.files ∧ t'.nonExistent = t.nonExistent := by
  unfold Dtrace.handle_proc_start at h
  repeat' split at h
  all_goals first
    | (simp only [Option.some.injEq] at h; subst h; exact ⟨rfl, rfl⟩)
    | exact absurd h (by simp)

theorem dfiles_handle_proc_exit (t : DState) (pid : Int) (t' : DState)
    (h : Dtrace.handle_proc_exit t pid = some t') :
    t'.files = t.files ∧ t'.nonExistent = t.nonExistent := by
  unfold Dtrace.handle_proc_exit at h
  repeat' split at h
  all_goals first
    | (simp only [Option.some.injEq] at h; subst h; exact ⟨rfl, rfl⟩)
    | exact absurd h (by simp)

theorem dfiles_handle_chdir (t : DState) (pid : Int) (args res : PyStr) (t' : DState)
    (h : Dtrace.handle_chdir t pid args res = some t') :
    t'.files = t.files ∧ t'.nonExistent = t.nonExistent := by
  unfold Dtrace.handle_chdir at h
  repeat' split at h
  all_goals first
    | (simp only [Option.some.injEq] at h; subst h; exact ⟨rfl, rfl⟩)
    | exact absurd h (by simp)

theorem dgood_handle_open (bl : PyStr → Bool) (fs : FSys) (t : DState) (pid : Int)
    (args res : PyStr) (t' : DState) (hg : DGood fs t)
    (h : Dtrace.handle_open bl fs t pid args res = some t') : DGood fs t' := by
  unfold Dtrace.handle_open at h
  split at h
  · exact absurd h (by simp)
  · split at h
    · simp only [Option.some.injEq] at h; subst h; exact hg
    · exact dgood_handle_file _ _ _ _ _ _ _ hg h

theorem dgood_on_line (bl : PyStr → Bool) (fs : FSys) (t : DState) (line : PyStr)
    (t' : DState) (hg : DGood fs t) (h : Dtrace.on_line bl fs t line = some t') :
    DGood fs t' := by
  unfold Dtrace.on_line at h
  split at h
  · exact absurd h (by simp)
  · dsimp only at h
    split at h
    · unfold Dtrace.handle_dtrace_BEGIN at h
      simp only [Option.some.injEq] at h; subst h; exact hg
    · split at h
      · have he := dfiles_handle_proc_start _ _ _ _ _ h
        exact dgood_of_eq fs t t' hg he.1 he.2
      · split at h
        · have he := dfiles_handle_proc_exit _ _ _ h
          exact dgood_of_eq fs t t' hg he.1 he.2
        · split at h
          · have he := dfiles_handle_chdir _ _ _ _ _ h
            exact dgood_of_eq fs t t' hg he.1 he.2
          · split at h
            · unfold Dtrace.handle_open_nocancel at h
              exact dgood_handle_open _ _ _ _ _ _ _ hg h
            · split at h
              · exact dgood_handle_open _ _ _ _ _ _ _ hg h
              · split at h
                · unfold Dtrace.handle_rename at h
                  split at h
                  · exact absurd h (by simp)
                  · split at h
                    · exact absurd h (by simp)
                    · rename_i t1 ht1
                      exact dgood_handle_file _ _ _ _ _ _ _
                        (dgood_handle_file _ _ _ _ _ _ _ hg ht1) h
                · simp only [Option.some.injEq] at h; subst h; exact hg

theorem dgood_run_lines (bl : PyStr → Bool) (fs : FSys) (lines : List PyStr) :
    ∀ (t : DState) (t' : DState), DGood fs t →
      Dtrace.run_lines bl fs t lines = some t' → DGood fs t' := by
  induction lines with
  | nil =>
    intro t t' hg h
    unfold Dtrace.run_lines at h
    simp only [Option.some.injEq] at h
    subst h
    exact hg
  | cons l ls ih =>
    intro t t' hg h
    unfold Dtrace.run_lines at h
    split at h
    · exact absurd h (by simp)
    · rename_i t2 ht2
      exact ih t2 t' (dgood_on_line _ _ _ _ _ hg ht2) h

theorem lgood_handle_file (bl : PyStr → Bool) (fs : FSys) (u : LState) (fn : PyStr)
    (hg : LGood fs u) : LGood fs (Logman.handle_file bl fs u fn) := by
  unfold Logman.handle_file
  split
  · exact hg
  · split
    · rename_i hisf
      constructor
      · intro p hp
        rcases List.mem_cons.mp hp with rfl | hp2
        · exact hisf
        · exact hg.1 p hp2
      · exact hg.2
    · rename_i hisf
      constructor
      · exact hg.1
      · intro p hp
        rcases List.mem_cons.mp hp with rfl | hp2
        · exact Bool.eq_false_iff.mpr hisf
        · exact hg.2 p hp2

theorem lgood_foldl (bl : PyStr → Bool) (fs : FSys) (paths : List PyStr) :
    ∀ (u : LState), LGood fs u → LGood fs (paths.foldl (Logman.handle_file bl fs) u) := by
  induction paths with
  | nil => intro u hg; exact hg
  | cons p ps ih =>
    intro u hg
    simp only [List.foldl_cons]
    exact ih _ (lgood_handle_file bl fs u p hg)

/-- Claim C1: for every parse run of any flavor — the strace and dtrace
`parse_log` over any log lines, and the Windows ETW set construction over
any file-event paths — the two returned sets are disjoint, including after
the final `os.path.realpath` pass, provided the filesystem is coherent in
the sense that a path and its realpath agree on `isfile`. -/
theorem claim_C1 (fs : FSys) (bl : PyStr → Bool)
    (hfs : ∀ p, fs.isfile (fs.realpath p) = fs.isfile p) :
    (∀ lines E N, Strace.parse_log bl fs lines = some (E, N) → ∀ x ∈ E, x ∉ N)
    ∧ (∀ lines E N, Dtrace.parse_log bl fs lines = some (E, N) → ∀ x ∈ E, x ∉ N)
    ∧ (∀ paths E N, Logman.parse_log bl fs paths = (E, N) → ∀ x ∈ E, x ∉ N) := by
  refine ⟨?_, ?_, ?_⟩
  · intro lines E N h x hxE hxN
    unfold Strace.parse_log at h
    cases hrun : Strace.run_lines bl fs Strace.init lines with
    | none => rw [hrun] at h; exact absurd h (by simp)
    | some sf =>
      rw [hrun] at h
      simp only [Option.map_some', Option.some.injEq, Prod.mk.injEq] at h
      have hgood : SGood fs sf :=
        sgood_run_lines bl fs lines Strace.init sf ⟨by simp [Strace.init], by simp [Strace.init]⟩
          hrun
      rcases h with ⟨hE, hN⟩
      subst hE
      subst hN
      rcases List.mem_map.mp hxE with ⟨a, ha, rfl⟩
      rcases List.mem_map.mp hxN with ⟨b, hb, hab⟩
      have h1 : fs.isfile (fs.realpath a) = true := by rw [hfs]; exact hgood.1 a ha
      have h2 : fs.isfile (fs.realpath b) = false := by rw [hfs]; exact hgood.2 b hb
      rw [hab, h1] at h2
      simp at h2
  · intro lines E N h x hxE hxN
    unfold Dtrace.parse_log at h
    cases hrun : Dtrace.run_lines bl fs Dtrace.init lines with
    | none => rw [hrun] at h; exact absurd h (by simp)
    | some tf =>
      rw [hrun] at h
      simp only [Option.map_some', Option.some.injEq, Prod.mk.injEq] at h
      have hgood : DGood fs tf :=
        dgood_run_lines bl fs lines Dtrace.init tf ⟨by simp [Dtrace.init], by simp [Dtrace.init]⟩
          hrun
      rcases h with ⟨hE, hN⟩
      subst hE
      subst hN
      rcases List.mem_map.mp hxE with ⟨a, ha, rfl⟩
      rcases List.mem_map.mp hxN with ⟨b, hb, hab⟩
      have h1 : fs.isfile (fs.realpath a) = true := by rw [hfs]; exact hgood.1 a ha
      have h2 : fs.isfile (fs.realpath b) = false := by rw [hfs]; exact hgood.2 b hb
      rw [hab, h1] at h2
      simp at h2
  · intro paths E N h x hxE hxN
    unfold Logman.parse_log at h
    have hgood : LGood fs (paths.foldl (Logman.handle_file bl fs) ⟨[], []⟩) :=
      lgood_foldl bl fs paths ⟨[], []⟩ ⟨by simp, by simp⟩
    simp only [Prod.mk.injEq] at h
    rcases h with ⟨hE, hN⟩
    subst hE
    subst hN
    rcases List.mem_map.mp hxE with ⟨a, ha, rfl⟩
    rcases List.mem_map.mp hxN with ⟨b, hb, hab⟩
    have h1 : fs.isfile (fs.realpath a) = true := by rw [hfs]; exact hgood.1 a ha
    have h2 : fs.isfile (fs.realpath b) = false := by rw [hfs]; exact hgood.2 b hb
    rw [hab, h1] at h2
    simp at h2

theorem claim_C1_witness :
    Strace.parse_log (fun _ => false) ⟨fun p => decide (p = "/a".data), fun _ => false, id⟩
      ["1 chdir(\"/r\") = 0".data, "1 open(\"/a\", O_RDONLY) = 3".data,
       "1 open(\"f\", O_RDONLY) = 4".data] = some (["/a".data], ["/r/f".data])
    ∧ "/a".data ∉ ["/r/f".data] :=
  ⟨by decide,
   (claim_C1 ⟨fun p => decide (p = "/a".data), fun _ => false, id⟩ (fun _ => false)
      (fun _ => rfl)).1
     ["1 chdir(\"/r\") = 0".data, "1 open(\"/a\", O_RDONLY) = 3".data,
      "1 open(\"f\", O_RDONLY) = 4".data] ["/a".data] ["/r/f".data] (by decide)
     "/a".data (by decide)⟩

theorem dropWhile_append_all (q : Char → Bool) (l l' : PyStr) (h : ∀ x ∈ l, q x = true) :
    (l ++ l').dropWhile q = l'.dropWhile q := by
  induction l with
  | nil => rfl
  | cons a t ih =>
    simp only [List.cons_append, List.dropWhile_cons, h a (by simp)]
    exact ih (fun x hx => h x (by simp [hx]))

theorem dropWhile_head_not (q : Char → Bool) (l : PyStr) (a : Char)
    (h : (l.dropWhile q).head? = some a) : q a = false := by
  induction l with
  | nil => simp [List.dropWhile] at h
  | cons x xs ih =>
    rw [List.dropWhile_cons] at h
    split at h
    · exact ih h
    · simp only [List.head?_cons, Option.some.injEq] at h
      subst h
      rename_i hx
      exact Bool.eq_false_iff.mpr hx

theorem dropWhile_cons_head_false (q : Char → Bool) (x : Char) (xs : PyStr)
    (hx : q x = false) : (x :: xs).dropWhile q = x :: xs := by
  rw [List.dropWhile_cons, hx]
  simp

/-- Shape of the values `posixpath.dirname` can return: empty, all slashes,
or with no trailing slash. -/
def dirOk (c : PyStr) : Prop := c = [] ∨ (∀ ch ∈ c, ch = '/') ∨ endsSlash c = false

theorem endsSlash_rstrip (l : PyStr) :
    endsSlash ((l.dropWhile (fun c => decide (c = '/'))).reverse) = false := by
  unfold endsSlash
  rw [List.getLast?_reverse]
  cases hh : (l.dropWhile (fun c => decide (c = '/'))).head? with
  | none => simp
  | some a =>
    have ha := dropWhile_head_not _ _ _ hh
    simp only [decide_eq_false_iff_not] at ha
    simp [hh, ha]

theorem dirname_dirOk (p : PyStr) : dirOk (Posixpath.dirname p) := by
  unfold Posixpath.dirname
  dsimp only
  split
  · rename_i h
    exact Or.inl h
  · split
    · rename_i h2
      refine Or.inr (Or.inl ?_)
      intro ch hch
      have := List.all_eq_true.mp h2 ch hch
      simpa using this
    · exact Or.inr (Or.inr (endsSlash_rstrip _))

theorem dirname_no_slash (e : PyStr) (hne : '/' ∉ e) : Posixpath.dirname e = [] := by
  unfold Posixpath.dirname
  dsimp only
  have hall : ∀ x ∈ e.reverse, (fun c => decide (c ≠ '/')) x = true := by
    intro x hx
    simp only [decide_eq_true_eq]
    exact fun hxx => hne (hxx ▸ List.mem_reverse.mp hx)
  rw [List.dropWhile_eq_nil_iff.mpr hall]
  simp

theorem join_cases (c e : PyStr) (hne : '/' ∉ e) :
    Posixpath.join c e = if c = [] ∨ endsSlash c = true then c ++ e else c ++ '/' :: e := by
  unfold Posixpath.join
  rw [pyStarts_slash_false e hne]
  simp only [Bool.false_eq_true, if_false]

theorem dirname_all_slash_append (c e : PyStr) (hcs : ∀ ch ∈ c, ch = '/') (hc0 : c ≠ [])
    (hne : '/' ∉ e) : Posixpath.dirname (c ++ e) = c := by
  unfold Posixpath.dirname
  dsimp only
  rw [List.reverse_append]
  have hall : ∀ x ∈ e.reverse, (fun ch => decide (ch ≠ '/')) x = true := by
    intro x hx
    simp only [decide_eq_true_eq]
    exact fun hxx => hne (hxx ▸ List.mem_reverse.mp hx)
  rw [dropWhile_append_all _ _ _ hall]
  have hcrev : c.reverse.dropWhile (fun ch => decide (ch ≠ '/')) = c.reverse := by
    cases hrev : c.reverse with
    | nil => rfl
    | cons x xs =>
      have hx : x ∈ c := by
        rw [← List.mem_reverse, hrev]
        exact List.mem_cons_self _ _
      have := hcs x hx
      subst this
      exact dropWhile_cons_head_false _ _ _ (by simp)
  rw [hcrev, List.reverse_reverse]
  rw [if_neg (by simpa using hc0), if_pos ?_]
  exact List.all_eq_true.mpr (fun ch hch => by simpa using hcs ch hch)

theorem dropWhile_cons_head_true (q : Char → Bool) (x : Char) (xs : PyStr)
    (hx : q x = true) : (x :: xs).dropWhile q = xs.dropWhile q := by
  rw [List.dropWhile_cons, hx]
  simp

theorem dirname_noslash_tail_append (c e : PyStr) (hc0 : c ≠ [])
    (hcs : endsSlash c = false) (hne : '/' ∉ e) :
    Posixpath.dirname (c ++ '/' :: e) = c := by
  have hall : ∀ x ∈ e.reverse, (fun ch => decide (ch ≠ '/')) x = true := by
    intro x hx
    simp only [decide_eq_true_eq]
    exact fun hxx => hne (hxx ▸ List.mem_reverse.mp hx)
  have hrev : (c ++ '/' :: e).reverse = e.reverse ++ '/' :: c.reverse := by
    rw [List.reverse_append, List.reverse_cons, List.append_assoc, List.singleton_append]
  have hhead : ((c ++ '/' :: e).reverse.dropWhile (fun ch => decide (ch ≠ '/'))).reverse =
      c ++ ['/'] := by
    rw [hrev, dropWhile_append_all _ _ _ hall, dropWhile_cons_head_false _ _ _ (by simp),
      List.reverse_cons, List.reverse_reverse]
  have hgl : ∃ g, c.getLast? = some g := by
    cases c with
    | nil => exact absurd rfl hc0
    | cons a t => exact ⟨_, List.getLast?_eq_getLast_of_ne_nil (by simp)⟩
  obtain ⟨g, hgl2⟩ := hgl
  have hgne : g ≠ '/' := by
    intro hg
    subst hg
    rw [endsSlash, hgl2] at hcs
    simp at hcs
  have hgmem : g ∈ c := mem_of_getLast?_eq c g hgl2
  have hnall : ((c ++ ['/']).all (fun ch => decide (ch = '/'))) = false := by
    rcases hb : (c ++ ['/']).all (fun ch => decide (ch = '/')) with _ | _
    · rfl
    · have hg2 := List.all_eq_true.mp hb g (List.mem_append_left _ hgmem)
      simp at hg2
      exact absurd hg2 hgne
  have hcrevd : c.reverse.dropWhile (fun ch => decide (ch = '/')) = c.reverse := by
    cases hcr : c.reverse with
    | nil => rfl
    | cons x xs =>
      have hx : c.getLast? = some x := by
        rw [← List.head?_reverse, hcr]
        rfl
      rw [hgl2] at hx
      have hxg : x = g := by
        injection hx with h2
        exact h2.symm
      subst hxg
      exact dropWhile_cons_head_false _ _ _ (by simp [hgne])
  unfold Posixpath.dirname
  dsimp only
  rw [hhead, if_neg (by simp), if_neg (by simp [hnall])]
  rw [List.reverse_append]
  simp only [List.reverse_cons, List.reverse_nil, List.nil_append, List.singleton_append]
  rw [dropWhile_cons_head_true _ _ _ (by simp), hcrevd, List.reverse_reverse]

theorem dirname_join_of_dirOk (c e : PyStr) (hc : dirOk c) (_he : e ≠ []) (hne : '/' ∉ e) :
    Posixpath.dirname (Posixpath.join c e) = c := by
  have hjoin := join_cases c e hne
  rcases hc with hc0 | hcs | hcs
  · subst hc0
    rw [hjoin, if_pos (Or.inl rfl), List.nil_append]
    exact dirname_no_slash e hne
  · by_cases hc0 : c = []
    · subst hc0
      rw [hjoin, if_pos (Or.inl rfl), List.nil_append]
      exact dirname_no_slash e hne
    · have hgl : ∃ g, c.getLast? = some g := by
        cases c with
        | nil => exact absurd rfl hc0
        | cons a t => exact ⟨_, List.getLast?_eq_getLast_of_ne_nil (by simp)⟩
      obtain ⟨g, hgl2⟩ := hgl
      have hgs : g = '/' := hcs g (mem_of_getLast?_eq c g hgl2)
      have hslash : endsSlash c = true := by
        rw [endsSlash, hgl2, hgs]
        simp
      rw [hjoin, if_pos (Or.inr hslash)]
      exact dirname_all_slash_append c e hcs hc0 hne
  · by_cases hc0 : c = []
    · subst hc0
      rw [hjoin, if_pos (Or.inl rfl), List.nil_append]
      exact dirname_no_slash e hne
    · rw [hjoin, if_neg ?_]
      · exact dirname_noslash_tail_append c e hc0 hcs hne
      · rintro (h | h)
        · exact hc0 h
        · rw [hcs] at h
          exact absurd h (by simp)

/-- The containment `actual ⊆ files` of one collapse step, phrased against
the original input set. -/
def actualSub (listdir : PyStr → List PyStr) (files0 : List PyStr) (root c : PyStr) : Prop :=
  ∀ e ∈ listdir (Posixpath.join root c), vcsOk e = true → Posixpath.join c e ∈ files0

/-- Invariant of the `extract_directories` loop: every current entry either
is an original input (when it has no trailing separator) or is a collapsed
directory `c/` whose whole filtered listing was contained in the original
input. -/
def EDInv (listdir : PyStr → List PyStr) (files0 : List PyStr) (root : PyStr)
    (cur : List PyStr) : Prop :=
  ∀ p ∈ cur, (endsSlash p = false → p ∈ files0)
    ∧ (endsSlash p = true → ∃ c, p = c ++ ['/'] ∧ actualSub listdir files0 root c)

theorem actualOf_no_endsSlash (listdir : PyStr → List PyStr) (root d : PyStr)
    (hw : ∀ dd e, e ∈ listdir dd → e ≠ [] ∧ '/' ∉ e) :
    ∀ x ∈ actualOf listdir root d, endsSlash x = false := by
  intro x hx
  unfold actualOf at hx
  rcases List.mem_map.mp hx with ⟨e, he, rfl⟩
  have hwe := hw _ e (List.mem_filter.mp he).1
  exact join_not_endsSlash d e hwe.1 hwe.2

theorem actualOf_dirname (listdir : PyStr → List PyStr) (root d : PyStr) (hd : dirOk d)
    (hw : ∀ dd e, e ∈ listdir dd → e ≠ [] ∧ '/' ∉ e) :
    ∀ x ∈ actualOf listdir root d, Posixpath.dirname x = d := by
  intro x hx
  unfold actualOf at hx
  rcases List.mem_map.mp hx with ⟨e, he, rfl⟩
  have hwe := hw _ e (List.mem_filter.mp he).1
  exact dirname_join_of_dirOk d e hd hwe.1 hwe.2

theorem edStep_inv (listdir : PyStr → List PyStr) (files0 : List PyStr) (root d : PyStr)
    (cur : List PyStr) (hw : ∀ dd e, e ∈ listdir dd → e ≠ [] ∧ '/' ∉ e)
    (hinv : EDInv listdir files0 root cur) :
    EDInv listdir files0 root (edStep listdir root cur d) := by
  unfold edStep
  dsimp only
  split
  · rename_i hall
    have hsub : actualSub listdir files0 root d := by
      intro e he hok
      have hmem : Posixpath.join d e ∈ actualOf listdir root d := by
        unfold actualOf
        exact List.mem_map.mpr ⟨e, List.mem_filter.mpr ⟨he, hok⟩, rfl⟩
      have hcur : Posixpath.join d e ∈ cur := by
        have h2 := List.all_eq_true.mp hall _ hmem
        simpa using h2
      have hwe := hw (Posixpath.join root d) e he
      have hns : endsSlash (Posixpath.join d e) = false :=
        join_not_endsSlash d e hwe.1 hwe.2
      exact (hinv _ hcur).1 hns
    split
    · intro p hp
      exact hinv p (List.mem_filter.mp hp).1
    · intro p hp
      rcases List.mem_append.mp hp with hp2 | hp2
      · exact hinv p (List.mem_filter.mp hp2).1
      · have hpd : p = d ++ ['/'] := by simpa using hp2
        subst hpd
        constructor
        · intro hf
          rw [endsSlash, List.getLast?_concat] at hf
          simp at hf
        · intro _
          exact ⟨d, rfl, hsub⟩
  · exact hinv

theorem edFold_inv (listdir : PyStr → List PyStr) (files0 : List PyStr) (root : PyStr)
    (ds : List PyStr) : ∀ cur : List PyStr,
    (∀ dd e, e ∈ listdir dd → e ≠ [] ∧ '/' ∉ e) →
    EDInv listdir files0 root cur →
    EDInv listdir files0 root (ds.foldl (edStep listdir root) cur) := by
  induction ds with
  | nil => intro cur _ h; exact h
  | cons d rest ih =>
    intro cur hw hinv
    simp only [List.foldl_cons]
    exact ih _ hw (edStep_inv _ _ _ _ _ hw hinv)

theorem edStep_keep_slash (listdir : PyStr → List PyStr) (root d x : PyStr)
    (cur : List PyStr) (hw : ∀ dd e, e ∈ listdir dd → e ≠ [] ∧ '/' ∉ e)
    (hx : endsSlash x = true) (hmem : x ∈ cur) :
    x ∈ edStep listdir root cur d := by
  unfold edStep
  dsimp only
  split
  · have hxa : x ∉ actualOf listdir root d := by
      intro hxa
      rw [actualOf_no_endsSlash listdir root d hw x hxa] at hx
      exact absurd hx (by simp)
    have hrem : x ∈ cur.filter (fun f => decide (f ∉ actualOf listdir root d)) :=
      List.mem_filter.mpr ⟨hmem, by simpa using hxa⟩
    split
    · exact hrem
    · exact List.mem_append_left _ hrem
  · exact hmem

theorem edFold_keep_slash (listdir : PyStr → List PyStr) (root : PyStr)
    (hw : ∀ dd e, e ∈ listdir dd → e ≠ [] ∧ '/' ∉ e) (ds : List PyStr) :
    ∀ (cur : List PyStr) (x : PyStr), endsSlash x = true → x ∈ cur →
      x ∈ ds.foldl (edStep listdir root) cur := by
  induction ds with
  | nil => intro cur x _ hm; exact hm
  | cons d rest ih =>
    intro cur x hx hm
    simp only [List.foldl_cons]
    exact ih _ x hx (edStep_keep_slash listdir root d x cur hw hx hm)

theorem edFold_reach (listdir : PyStr → List PyStr) (root D : PyStr)
    (hw : ∀ dd e, e ∈ listdir dd → e ≠ [] ∧ '/' ∉ e) (ds : List PyStr) :
    ∀ cur : List PyStr, D ∈ ds → (∀ c ∈ ds, dirOk c) →
      (∀ x ∈ actualOf listdir root D, x ∈ cur) →
      D ++ ['/'] ∈ ds.foldl (edStep listdir root) cur := by
  induction ds with
  | nil => intro cur h; simp at h
  | cons c rest ih =>
    intro cur hDin hok hJ
    simp only [List.foldl_cons]
    by_cases hcD : c = D
    · subst hcD
      have hstep : c ++ ['/'] ∈ edStep listdir root cur c := by
        unfold edStep
        dsimp only
        have hall : (actualOf listdir root c).all (fun x => decide (x ∈ cur)) = true := by
          rw [List.all_eq_true]
          intro x hx
          simpa using hJ x hx
        rw [if_pos hall]
        split
        · rename_i hin
          exact hin
        · exact List.mem_append_right _ (List.mem_cons_self _ _)
      exact edFold_keep_slash listdir root hw rest (edStep listdir root cur c) (c ++ ['/'])
        (by rw [endsSlash, List.getLast?_concat]; simp) hstep
    · have hDrest : D ∈ rest := by
        rcases List.mem_cons.mp hDin with h | h
        · exact absurd h.symm hcD
        · exact h
      refine ih (edStep listdir root cur c) hDrest
        (fun z hz => hok z (List.mem_cons_of_mem _ hz)) ?_
      intro x hx
      have hxcur := hJ x hx
      have hdirx : Posixpath.dirname x = D :=
        actualOf_dirname listdir root D (hok D hDin) hw x hx
      unfold edStep
      dsimp only
      split
      · have hxnotc : x ∉ actualOf listdir root c := by
          intro hxc
          have hdc := actualOf_dirname listdir root c (hok c (List.mem_cons_self _ _)) hw x hxc
          rw [hdirx] at hdc
          exact hcD hdc.symm
        have hrem : x ∈ cur.filter (fun f => decide (f ∉ actualOf listdir root c)) :=
          List.mem_filter.mpr ⟨hxcur, by simpa using hxnotc⟩
        split
        · exact hrem
        · exact List.mem_append_left _ hrem
      · exact hxcur

theorem mem_pySortD (x : PyStr) (l : List PyStr) : x ∈ pySortD l ↔ x ∈ l := by
  unfold pySortD
  rw [List.mem_reverse, mem_pySortA]

/-- Filesystem listing used by the claim C2 counterexample: `/r/a` holds one
entry `f`, every other directory (in particular `/r/b`) is empty. -/
def cexListdir (q : PyStr) : List PyStr := if q = "/r/a".data then ["f".data] else []

/-- Counterexample to claim C2 as stated: with input `{a/f}` under root
`/r`, the directory `b` is empty, so every (zero) filesystem entries under
`root/b` belong to the input; yet `b/` does not appear in the
`extract_directories` output, because only dirnames of input files are ever
considered for collapse.  The biconditional of the claim is therefore false
at `D = b`. -/
theorem claim_C2_cex :
    ¬ (("b/".data ∈ extract_directories cexListdir ["a/f".data] "/r".data) ↔
       (∀ e ∈ cexListdir (Posixpath.join "/r".data "b".data),
          vcsOk e = true → Posixpath.join "b".data e ∈ ["a/f".data])) := by
  decide

/-- Claim C2 as amended: restricted to the candidate directories `D` that
occur as the dirname of some input entry — with inputs that are file paths
(no trailing separator) and filesystem listings made of nonempty,
separator-free entry names — `D/` appears in the `extract_directories`
output exactly when every listed entry under `root/D` whose name does not
end in `.svn` or `.pyc` belongs to the original input set; in particular
every collapsed directory's filtered listing is contained in the input. -/
theorem claim_C2_amended (listdir : PyStr → List PyStr) (files : List PyStr) (root D : PyStr)
    (hw : ∀ d e, e ∈ listdir d → e ≠ [] ∧ '/' ∉ e)
    (hn : ∀ f ∈ files, endsSlash f = false)
    (hD : D ∈ files.map Posixpath.dirname) :
    (D ++ ['/']) ∈ extract_directories listdir files root ↔
      ∀ e ∈ listdir (Posixpath.join root D), vcsOk e = true →
        Posixpath.join D e ∈ files := by
  unfold extract_directories
  dsimp only
  rw [mem_pySortA]
  have hdirsOk : ∀ c ∈ pySortD ((files.map Posixpath.dirname).dedup), dirOk c := by
    intro c hc
    rw [mem_pySortD, List.mem_dedup] at hc
    rcases List.mem_map.mp hc with ⟨f, _, rfl⟩
    exact dirname_dirOk f
  constructor
  · intro hmem
    have hinv0 : EDInv listdir files root files.dedup := by
      intro p hp
      have hpf := List.mem_dedup.mp hp
      refine ⟨fun _ => hpf, fun hsl => ?_⟩
      rw [hn p hpf] at hsl
      exact absurd hsl (by simp)
    have hinvF := edFold_inv listdir files root
      (pySortD ((files.map Posixpath.dirname).dedup)) files.dedup hw hinv0
    have hDslash : endsSlash (D ++ ['/']) = true := by
      rw [endsSlash, List.getLast?_concat]
      simp
    rcases (hinvF _ hmem).2 hDslash with ⟨c, hc, hsub⟩
    have hcD : D = c := by
      have h2 := congrArg List.dropLast hc
      simpa [List.dropLast_concat] using h2
    rw [← hcD] at hsub
    exact hsub
  · intro hrhs
    refine edFold_reach listdir root D hw (pySortD ((files.map Posixpath.dirname).dedup))
      files.dedup ?_ hdirsOk ?_
    · rw [mem_pySortD]
      exact List.mem_dedup.mpr hD
    · intro x hx
      unfold actualOf at hx
      rcases List.mem_map.mp hx with ⟨e, he2, rfl⟩
      have hef := List.mem_filter.mp he2
      exact List.mem_dedup.mpr (hrhs e hef.1 hef.2)

theorem claim_C2_amended_witness :
    (("a".data ++ ['/']) ∈ extract_directories cexListdir ["a/f".data] "/r".data) ↔
      (∀ e ∈ cexListdir (Posixpath.join "/r".data "a".data),
        vcsOk e = true → Posixpath.join "a".data e ∈ ["a/f".data]) :=
  claim_C2_amended cexListdir ["a/f".data] "/r".data "a".data
    (by
      intro d e he
      unfold cexListdir at he
      split at he
      · have he2 : e = "f".data := by simpa using he
        subst he2
        exact ⟨by decide, by decide⟩
      · simp at he)
    (by decide) (by decide)
